/-
Verification of the subproduct-tree polynomial engine of `fast-eval`
(file `src/subtree.rs`).

The engine is embedded shallowly:

* A dense polynomial (arkworks `DensePolynomial`) is a little-endian
  coefficient list `List F`, kept trimmed (no trailing zero coefficient);
  `trim` models `from_coefficients_slice` / `truncate_leading_zeros`.
* The external collaborators (field arithmetic, dense-polynomial
  add/mul/evaluate, the transform engine, batch inversion) are modelled by
  their mathematical contracts: `polyAdd`/`polyMul`/`evalList`, the
  size-`m` transform round trip `fftMulModel` (multiplication of the two
  coefficient vectors modulo `X^m - 1`), and elementwise reciprocals.
* Panics (assertion failures, arithmetic-overflow aborts, out-of-bounds
  indexing) are modelled by `Option`/an explicit `panicked` outcome.
* The recursive tree algorithms `multiply_up_the_tree` and
  `divide_down_the_tree` live in `fast_eval.rs`, which is not part of the
  sources at hand; they are modelled from the specification (see their
  doc comments).

All executable definitions are computable, so every concrete scenario can
be settled by `decide`; `ZMod 101` (wrapped as `K` with a kernel-friendly
inverse) serves as the concrete witness field.
-/
import Mathlib

set_option maxRecDepth 1000000

namespace FastEval

variable {F : Type} [Field F] [DecidableEq F]

/-! ### Coefficient lists: the dense-polynomial collaborator -/

/-- Removes trailing zero coefficients; models arkworks'
`truncate_leading_zeros` as performed by `from_coefficients_slice` and by
the dense-polynomial arithmetic, which keep the representation canonical
(highest stored coefficient nonzero). -/
def trim : List F → List F
  | [] => []
  | a :: as =>
    match trim as with
    | [] => if a = 0 then [] else [a]
    | b :: bs => a :: b :: bs

/-- Degree as computed by arkworks' `DensePolynomial::degree()`: the zero
polynomial (empty coefficient vector) reports degree `0`, otherwise
`coeffs.len() - 1`. -/
def arkDegree (l : List F) : ℕ := l.length - 1

/-- Horner evaluation; models `DensePolynomial::evaluate`. -/
def evalList (l : List F) (x : F) : F := l.foldr (fun c acc => c + x * acc) 0

/-- Coefficientwise sum of two coefficient vectors (the shorter one padded
with zeros). -/
def addPad : List F → List F → List F
  | [], ys => ys
  | x :: xs, [] => x :: xs
  | x :: xs, y :: ys => (x + y) :: addPad xs ys

/-- Dense polynomial addition (`&a + &b`), which re-canonicalizes. -/
def polyAdd (a b : List F) : List F := trim (addPad a b)

/-- Raw linear convolution of two coefficient vectors (schoolbook product,
no trimming); empty if either factor is the zero polynomial. -/
def rawConv : List F → List F → List F
  | [], _ => []
  | a :: as, b =>
    match rawConv as b with
    | [] => b.map (a * ·)
    | c :: cs => addPad (b.map (a * ·)) (0 :: c :: cs)

/-- Dense polynomial multiplication (`&a * &b`, the generic schoolbook
product used by the up-the-tree recombination). -/
def polyMul (a b : List F) : List F := trim (rawConv a b)

/-! ### The transform-engine collaborator -/

/-- Pads a coefficient vector with zeros up to length `m`. -/
def padTo (m : ℕ) (l : List F) : List F := l ++ List.replicate (m - l.length) 0

/-- Folds a coefficient vector modulo `X^m - 1`: coefficient `t` is added
onto coefficient `t % m` (fuel-driven so that it reduces in the kernel). -/
def chunkFold (m : ℕ) : ℕ → List F → List F
  | 0, c => c.take m
  | fuel + 1, c => addPad (c.take m) (chunkFold m fuel (c.drop m))

/-- Contract of the transform engine for the monic-product trick: forward
transform of `a` and `b` over a domain of size `m`, pointwise product,
inverse transform.  Mathematically this returns the `m` coefficients of
`a * b  mod  (X^m - 1)`; the spec assumes the engine can always build the
requested power-of-two domain. -/
def fftMulModel (m : ℕ) (a b : List F) : List F :=
  let c := rawConv a b
  padTo m (chunkFold m c.length c)

/-! ### `multiply_pow2_monic_polys` (src/subtree.rs lines 12-59) -/

/-- Model of `multiply_pow2_monic_polys`.  `none` models a panic:
the explicit `panic!` calls for a degree mismatch / non-power-of-two
degree / non-monic operand, the debug overflow abort of `monic_deg - 1`
when the degree is `0`, and the out-of-bounds indexing `product_poly[0]`
when the inverse-transformed product trims to an empty coefficient
vector. -/
def multiply_pow2_monic_polys (a b : List F) : Option (List F) :=
  if arkDegree a ≠ arkDegree b then none
  else if arkDegree a = 0 then none
  else if arkDegree a &&& (arkDegree a - 1) ≠ 0 then none
  else if a.getLast? ≠ some 1 then none
  else if b.getLast? ≠ some 1 then none
  else
    match trim (fftMulModel (2 * arkDegree a) a b) with
    | [] => none
    | p0 :: rest => some ((p0 - 1) :: (rest ++ [1]))

/-! ### Errors and the tree structure -/

/-- The two recoverable construction errors (`error.rs`). -/
inductive Error : Type
  | EmptyRoots : Error
  | NotPow2 : Error
deriving DecidableEq, Repr

/-- The subproduct tree: `layers` (layer 0 = monic linear leaves, top
layer = the vanishing polynomial) and the barycentric weights `ri`. -/
structure Pow2ProductSubtree (F : Type) : Type where
  layers : List (List (List F))
  ri : List F
deriving DecidableEq, Repr

/-- Node accessor: `layers[l][j]` (out-of-range reads give the zero
polynomial; the verified call sites stay in range). -/
def getNode (layers : List (List (List F))) (l j : ℕ) : List F :=
  (layers.getD l []).getD j []

/-- Modelled from the spec: remainder of `g` modulo the monic divisor `d`,
one cancellation step.  Subtracts `lead(g) · X^(|g|-|d|) · d` from `g`;
because `d` is monic the top coefficient cancels and the result has
exactly one coefficient fewer. -/
def cancelTop (g d : List F) : List F :=
  let s := g.length - d.length
  let c := g.getD (g.length - 1) 0
  (List.range (g.length - 1)).map
    (fun i => g.getD i 0 - (if s ≤ i then c * d.getD (i - s) 0 else 0))

/-- Modelled from the spec: fuel-driven polynomial remainder by a monic
divisor (the reduction performed at each internal node of the
down-the-tree pass). -/
def modMonicAux (d : List F) : ℕ → List F → List F
  | 0, g => trim g
  | fuel + 1, g =>
    if g.length < d.length then trim g
    else if d.length ≤ 1 then []
    else modMonicAux d fuel (cancelTop g d)

/-- Modelled from the spec: polynomial remainder modulo a monic divisor. -/
def modMonic (g d : List F) : List F := modMonicAux d g.length g

/-- Modelled from the spec (`fast_eval.rs` is not among the sources):
`FastEval::multiply_up_the_tree`.  At a leaf the accumulated polynomial is
the constant `v_i`; at an internal node `(l+1, j)` the two half results
are combined as
`left · layers[l][2j+1] + right · layers[l][2j]`
using the generic (non-monic) dense multiplication. -/
def multiply_up_the_tree (layers : List (List (List F))) (evals : List F) :
    ℕ → ℕ → List F
  | 0, j => trim [evals.getD j 0]
  | l + 1, j =>
    polyAdd
      (polyMul (multiply_up_the_tree layers evals l (2 * j)) (getNode layers l (2 * j + 1)))
      (polyMul (multiply_up_the_tree layers evals l (2 * j + 1)) (getNode layers l (2 * j)))

/-- Modelled from the spec (`fast_eval.rs` is not among the sources):
`FastEval::divide_down_the_tree`.  At an internal node the incoming
residue is reduced modulo each child's product polynomial and the
recursion descends with the two residues; at a leaf the residue is a
constant — its constant coefficient, the value at that leaf's root, is
emitted.  Results are concatenated in leaf order. -/
def divide_down_the_tree (layers : List (List (List F))) :
    ℕ → ℕ → List F → List F
  | 0, j, g => [g.getD 0 0]
  | l + 1, j, g =>
    divide_down_the_tree layers l (2 * j) (modMonic g (getNode layers l (2 * j))) ++
      divide_down_the_tree layers l (2 * j + 1) (modMonic g (getNode layers l (2 * j + 1)))

/-! ### Construction (src/subtree.rs lines 67-107) -/

/-- Outcome of `Pow2ProductSubtree::construct`, with panics reified. -/
inductive ConstructResult (F : Type) : Type
  | failure : Error → ConstructResult F
  | panicked : ConstructResult F
  | success : Pow2ProductSubtree F → ConstructResult F
deriving DecidableEq, Repr

/-- Fuel-driven base-2 logarithm (models `usize::trailing_zeros` on the
power-of-two length). -/
def log2fuel : ℕ → ℕ → ℕ
  | 0, _ => 0
  | fuel + 1, n => if 2 ≤ n then log2fuel fuel (n / 2) + 1 else 0

/-- Pairs up adjacent nodes of a layer and multiplies each pair with
`multiply_pow2_monic_polys` (the `for j in 0..nodes_on_layer` loop);
`none` propagates a panic of the monic multiplier. -/
def pairMulLayer : List (List F) → Option (List (List F))
  | a :: b :: rest => do
    let p ← multiply_pow2_monic_polys a b
    let r ← pairMulLayer rest
    pure (p :: r)
  | _ => some []

/-- Builds layers `0..k` bottom-up starting from the given leaf layer. -/
def buildLayers (cur : List (List F)) : ℕ → Option (List (List (List F)))
  | 0 => some [cur]
  | k + 1 => do
    let next ← pairMulLayer cur
    let rest ← buildLayers next k
    pure (cur :: rest)

/-- The monic linear leaf `x - root`. -/
def mkLeaf (r : F) : List F := [-r, 1]

/-- Model of `Pow2ProductSubtree::construct`.  Batch inversion is the
external collaborator `ark_ff::batch_inversion`, modelled by elementwise
reciprocals (it skips zero entries, matching `0⁻¹ = 0`). -/
def construct (roots : List F) : ConstructResult F :=
  if roots.length = 0 then .failure .EmptyRoots
  else if roots.length &&& (roots.length - 1) ≠ 0 then .failure .NotPow2
  else
    match buildLayers (roots.map mkLeaf) (log2fuel roots.length roots.length) with
    | none => .panicked
    | some layers =>
      .success ⟨layers,
        (divide_down_the_tree layers (log2fuel roots.length roots.length) 0
          (multiply_up_the_tree layers (List.replicate roots.length (1 : F))
            (log2fuel roots.length roots.length) 0)).map (·⁻¹)⟩

/-! ### The public contract (src/subtree.rs lines 110-155) -/

/-- Model of `get_vanishing`: the single top-layer node. -/
def get_vanishing (t : Pow2ProductSubtree F) : List F :=
  getNode t.layers (t.layers.length - 1) 0

/-- Model of `get_ri`: the stored barycentric weights. -/
def get_ri (t : Pow2ProductSubtree F) : List F := t.ri

/-- Model of `evaluate_over_domain`; `none` models the fatal
`assert!(f.degree() < n)`. -/
def evaluate_over_domain (t : Pow2ProductSubtree F) (f : List F) : Option (List F) :=
  if arkDegree f < (t.layers.getD 0 []).length then
    some (divide_down_the_tree t.layers (t.layers.length - 1) 0 f)
  else none

/-- Model of `interpolate`; `none` models the fatal
`assert_eq!(evals.len(), self.ri.len())`. -/
def interpolate (t : Pow2ProductSubtree F) (evals : List F) : Option (List F) :=
  if evals.length = t.ri.length then
    some (multiply_up_the_tree t.layers (List.zipWith (· * ·) evals t.ri)
      (t.layers.length - 1) 0)
  else none

/-- Model of `batch_evaluate_lagrange_basis`: evaluates every monic linear
leaf at `point`, batch-inverts, evaluates the vanishing polynomial, and
scales. -/
def batch_evaluate_lagrange_basis (t : Pow2ProductSubtree F) (point : F) : List F :=
  List.zipWith
    (fun ri mi => ri * mi * evalList (getNode t.layers (t.layers.length - 1) 0) point)
    t.ri
    (((t.layers.getD 0 []).map (fun p => evalList p point)).map (·⁻¹))

/-! ### Specification-side reference definitions -/

/-- The explicit product `∏ (x - root_i)`, computed independently by
repeated (schoolbook) multiplication of the linear factors. -/
def linearProduct (roots : List F) : List F :=
  roots.foldl (fun acc r => polyMul acc (mkLeaf r)) [1]

/-- The roots covered by tree node `(l, j)`: the `j`-th contiguous block
of `2^l` input roots. -/
def blockRoots (roots : List F) (l j : ℕ) : List F :=
  (roots.drop (j * 2 ^ l)).take (2 ^ l)

/-- The true product polynomial of tree node `(l, j)`. -/
def blockProd (roots : List F) (l j : ℕ) : List F :=
  linearProduct (blockRoots roots l j)

/-- Non-degeneracy of the construction: at every internal pairing the true
product of the two children has a nonzero coefficient in its second-highest
position `2^(l+1) - 1`.  Exactly in this case the width-halved transform of
`multiply_pow2_monic_polys` loses nothing to trimming and the tree layers
are built correctly. -/
def nonDegenerate (roots : List F) (k : ℕ) : Bool :=
  (List.range k).all fun l =>
    (List.range (roots.length / 2 ^ (l + 1))).all fun j =>
      decide ((blockProd roots (l + 1) j).getD (2 ^ (l + 1) - 1) 0 ≠ 0)

/-- The denominator `∏_{j ≠ i} (root_i - root_j)` of the `i`-th barycentric
weight. -/
def weightDen (roots : List F) (i : ℕ) : F :=
  ((roots.eraseIdx i).map (fun rj => roots.getD i 0 - rj)).prod

/-- The explicit Lagrange basis value
`∏_{j ≠ i} (point - root_j) / (root_i - root_j)`. -/
def lagrangeAt (roots : List F) (i : ℕ) (point : F) : F :=
  ((roots.eraseIdx i).map (fun rj => (point - rj) * (roots.getD i 0 - rj)⁻¹)).prod

/-- Formal derivative of a coefficient list. -/
def derivList (l : List F) : List F :=
  (List.range (l.length - 1)).map (fun i => ((i + 1 : ℕ) : F) * l.getD (i + 1) 0)

/-- A list is in canonical (arkworks) form when trimming is a no-op. -/
def Trimmed (l : List F) : Prop := trim l = l

instance (l : List F) : Decidable (Trimmed l) :=
  inferInstanceAs (Decidable (trim l = l))

/-- The list of true product polynomials forming layer `l`. -/
def trueLayer (roots : List F) (l : ℕ) : List (List F) :=
  (List.range (roots.length / 2 ^ l)).map (fun j => blockProd roots l j)

/-- The list of all true layers `0..k`. -/
def trueLayers (roots : List F) (k : ℕ) : List (List (List F)) :=
  (List.range (k + 1)).map (fun t => trueLayer roots t)

/-! ### Bridge to `Mathlib.Polynomial` -/

open Polynomial in
/-- Semantic interpretation of a coefficient list as a polynomial. -/
noncomputable def toPoly : List F → Polynomial F
  | [] => 0
  | a :: as => Polynomial.C a + Polynomial.X * toPoly as

/-- The product `∏_{t ≠ i} (X - C rs_t)` with the `i`-th factor removed. -/
noncomputable def prodExcept (rs : List F) (i : ℕ) : Polynomial F :=
  ((rs.eraseIdx i).map (fun r => Polynomial.X - Polynomial.C r)).prod

/-- The linear combination `Σ_i C w_i · prodExcept block i` produced by the
up-the-tree recombination over one block. -/
noncomputable def combSum (block w : List F) : Polynomial F :=
  ((List.range block.length).map
    (fun i => Polynomial.C (w.getD i 0) * prodExcept block i)).sum

/-- The tree produced by a successful construction (dummy otherwise);
convenience accessor for stating concrete scenarios. -/
def getTree (roots : List F) : Pow2ProductSubtree F :=
  match construct roots with
  | .success t => t
  | _ => ⟨[], []⟩

/-- One call of the `PolyProcessor` trait interface (src/subtree.rs lines
110-155), reified for the frame-effect analysis. -/
inductive ProcessorCall (F : Type) : Type
  | getVanishingCall : ProcessorCall F
  | getRiCall : ProcessorCall F
  | evaluateOverDomainCall : List F → ProcessorCall F
  | interpolateCall : List F → ProcessorCall F
  | batchEvaluateLagrangeBasisCall : F → ProcessorCall F

/-- State-passing semantics of one trait call: the receiver (`&self`) is
threaded through explicitly and returned alongside the output.  Each arm
mirrors the corresponding method body, which only reads `layers` and `ri`;
no arm writes a receiver field, so the returned state is the incoming
tree. -/
def runCall (t : Pow2ProductSubtree F) :
    ProcessorCall F → Option (List F) × Pow2ProductSubtree F
  | .getVanishingCall => (some (get_vanishing t), t)
  | .getRiCall => (some (get_ri t), t)
  | .evaluateOverDomainCall f => (evaluate_over_domain t f, t)
  | .interpolateCall evals => (interpolate t evals, t)
  | .batchEvaluateLagrangeBasisCall point => (some (batch_evaluate_lagrange_basis t point), t)

instance : Fact (Nat.Prime 101) := ⟨by norm_num⟩

/-- The concrete witness field: `ZMod 101` with a kernel-friendly inverse
(`x⁻¹ = x ^ 99`, by Fermat's little theorem), so that concrete scenarios
evaluate by `decide`. -/
def K : Type := ZMod 101

instance : CommRing K := inferInstanceAs (CommRing (ZMod 101))

instance : DecidableEq K := inferInstanceAs (DecidableEq (ZMod 101))

instance : Field K where
  __ := inferInstanceAs (CommRing (ZMod 101))
  inv x := x ^ (99 : ℕ)
  exists_pair_ne := ⟨0, 1, by decide⟩
  mul_inv_cancel a ha := by
    show a * a ^ (99 : ℕ) = 1
    have h : (a : ZMod 101) ^ (100 : ℕ) = 1 := ZMod.pow_card_sub_one_eq_one ha
    calc a * a ^ (99 : ℕ) = a ^ (100 : ℕ) := by ring
    _ = 1 := h
  inv_zero := by
    show (0 : ZMod 101) ^ (99 : ℕ) = 0
    simp
  nnqsmul := _
  qsmul := _

open Polynomial

@[simp] theorem toPoly_nil : toPoly ([] : List F) = 0 := rfl

theorem toPoly_cons (a : F) (as : List F) :
    toPoly (a :: as) = C a + X * toPoly as := rfl

theorem coeff_toPoly (l : List F) (n : ℕ) : (toPoly l).coeff n = l.getD n 0 := by
  induction l generalizing n with
  | nil => simp
  | cons a as ih =>
    cases n with
    | zero => simp [toPoly_cons]
    | succ m => simp [toPoly_cons, coeff_X_mul, ih]

theorem toPoly_eq_zero_of_trim_nil {l : List F} (h : trim l = []) : toPoly l = 0 := by
  induction l with
  | nil => rfl
  | cons a as ih =>
    rw [trim] at h
    rcases hs : trim as with _ | ⟨b, bs⟩
    · rw [hs] at h
      by_cases ha : a = 0
      · rw [toPoly_cons, ih hs, ha]; simp
      · simp [ha] at h
    · rw [hs] at h; simp at h

theorem toPoly_trim (l : List F) : toPoly (trim l) = toPoly l := by
  induction l with
  | nil => rfl
  | cons a as ih =>
    rw [trim]
    rcases hs : trim as with _ | ⟨b, bs⟩
    · have has : toPoly as = 0 := toPoly_eq_zero_of_trim_nil hs
      by_cases ha : a = 0
      · simp [ha, toPoly_cons, has]
      · simp [ha, toPoly_cons, has]
    · show toPoly (a :: b :: bs) = toPoly (a :: as)
      rw [toPoly_cons, ← hs, ih, toPoly_cons]

theorem trimmed_nil : Trimmed ([] : List F) := rfl

theorem trim_trimmed (l : List F) : Trimmed (trim l) := by
  induction l with
  | nil => rfl
  | cons a as ih =>
    rw [Trimmed, trim]
    rcases hs : trim as with _ | ⟨b, bs⟩
    · by_cases ha : a = 0 <;> simp [ha, trim]
    · rw [hs] at ih
      rw [trim, ih]

theorem trimmed_cons_of {a : F} {as : List F} (h : Trimmed (a :: as)) : Trimmed as := by
  rw [Trimmed, trim] at h
  rcases hs : trim as with _ | ⟨b, bs⟩ <;> rw [hs] at h
  · by_cases ha : a = 0
    · rw [if_pos ha] at h
      exact absurd h (by simp)
    · rw [if_neg ha] at h
      injection h with _ h2
      rw [Trimmed, ← h2]
      rfl
  · injection h with _ h2
    have := trim_trimmed as
    rw [hs] at this
    rwa [← h2]

theorem trimmed_of_getLast?_ne_zero {l : List F} (h : ∀ c, l.getLast? = some c → c ≠ 0) :
    Trimmed l := by
  induction l with
  | nil => rfl
  | cons a as ih =>
    rcases has : as with _ | ⟨b, bs⟩
    · have ha : a ≠ 0 := h a (by rw [has]; rfl)
      subst has
      rw [Trimmed, trim]
      simp only [trim]
      rw [if_neg ha]
    · subst has
      have h' : Trimmed (b :: bs) := by
        apply ih
        intro c hc
        exact h c (by rw [List.getLast?_cons_cons]; exact hc)
      rw [Trimmed, trim]
      rw [Trimmed] at h'
      rw [h']

theorem getD_eq_zero_of_length_le {l : List F} {n : ℕ} (h : l.length ≤ n) :
    l.getD n 0 = 0 :=
  List.getD_eq_default _ _ h

theorem trimmed_getD_last_ne_zero {l : List F} (h : Trimmed l) (hne : l ≠ []) :
    l.getD (l.length - 1) 0 ≠ 0 := by
  induction l with
  | nil => exact absurd rfl hne
  | cons a as ih =>
    rcases has : as with _ | ⟨b, bs⟩
    · subst has
      rw [Trimmed, trim] at h
      simp only [trim] at h
      by_cases ha : a = 0
      · rw [if_pos ha] at h
        exact absurd h (by simp)
      · simpa using ha
    · rw [← has]
      have hne' : as ≠ [] := by rw [has]; exact List.cons_ne_nil _ _
      have h' : Trimmed as := trimmed_cons_of h
      have hlen : (a :: as).length - 1 = Nat.succ (as.length - 1) := by
        rw [List.length_cons]
        have : as.length ≠ 0 := by
          intro h0
          exact hne' (List.length_eq_zero.mp h0)
        omega
      rw [hlen, List.getD_cons_succ]
      exact ih h' hne'

/-- Two lists of the same length with the same `getD` entries are equal. -/
theorem ext_getD {l l' : List F} (hlen : l.length = l'.length)
    (h : ∀ i, l.getD i 0 = l'.getD i 0) : l = l' := by
  apply List.ext_getElem hlen
  intro i h1 h2
  have := h i
  rwa [List.getD_eq_getElem _ _ h1, List.getD_eq_getElem _ _ h2] at this

/-- Two canonical lists with the same polynomial are equal. -/
theorem trimmed_ext {l l' : List F} (hl : Trimmed l) (hl' : Trimmed l')
    (h : toPoly l = toPoly l') : l = l' := by
  have hco : ∀ n, l.getD n 0 = l'.getD n 0 := by
    intro n
    rw [← coeff_toPoly, ← coeff_toPoly, h]
  have hlen : l.length = l'.length := by
    by_contra hne
    rcases Nat.lt_or_ge l.length l'.length with hlt | hge
    · have hne' : l' ≠ [] := by
        intro hnil
        rw [hnil] at hlt
        exact Nat.not_lt_zero _ hlt
      have hlast := trimmed_getD_last_ne_zero hl' hne'
      rw [← hco] at hlast
      exact hlast (getD_eq_zero_of_length_le (by omega))
    · rcases Nat.lt_or_ge l'.length l.length with hlt' | hge'
      · have hne' : l ≠ [] := by
          intro hnil
          rw [hnil] at hlt'
          exact Nat.not_lt_zero _ hlt'
        have hlast := trimmed_getD_last_ne_zero hl hne'
        rw [hco] at hlast
        exact hlast (getD_eq_zero_of_length_le (by omega))
      · omega
  apply List.ext_getElem hlen
  intro i h1 h2
  have := hco i
  rwa [List.getD_eq_getElem _ _ h1, List.getD_eq_getElem _ _ h2] at this

theorem evalList_toPoly (l : List F) (x : F) : evalList l x = (toPoly l).eval x := by
  induction l with
  | nil => simp [evalList]
  | cons a as ih =>
    rw [toPoly_cons]
    simp only [evalList, List.foldr_cons] at *
    rw [ih]
    simp

/-! ### Addition and convolution lemmas -/

theorem length_addPad (a b : List F) : (addPad a b).length = max a.length b.length := by
  induction a generalizing b with
  | nil => simp [addPad]
  | cons x xs ih =>
    cases b with
    | nil => simp [addPad]
    | cons y ys =>
      simp only [addPad, List.length_cons, ih]
      omega

theorem toPoly_addPad (a b : List F) : toPoly (addPad a b) = toPoly a + toPoly b := by
  induction a generalizing b with
  | nil => simp [addPad]
  | cons x xs ih =>
    cases b with
    | nil => simp [addPad]
    | cons y ys =>
      simp only [addPad, toPoly_cons, ih]
      ring_nf
      rw [map_add]
      ring

theorem rawConv_nil_right (a : List F) : rawConv a ([] : List F) = [] := by
  induction a with
  | nil => rfl
  | cons x xs ih => simp [rawConv, ih]

theorem toPoly_map_mul (c : F) (l : List F) :
    toPoly (l.map (c * ·)) = C c * toPoly l := by
  induction l with
  | nil => simp
  | cons x xs ih =>
    simp only [List.map_cons, toPoly_cons, ih]
    ring_nf
    rw [map_mul]
    ring

theorem toPoly_rawConv (a b : List F) : toPoly (rawConv a b) = toPoly a * toPoly b := by
  induction a with
  | nil => simp [rawConv]
  | cons x xs ih =>
    rw [rawConv]
    rcases hc : rawConv xs b with _ | ⟨c, cs⟩
    · have h0 : toPoly xs * toPoly b = 0 := by rw [← ih, hc, toPoly_nil]
      rw [toPoly_map_mul, toPoly_cons, add_mul, mul_assoc, h0, mul_zero, add_zero]
    · show toPoly (addPad (b.map (x * ·)) (0 :: c :: cs)) = _
      rw [toPoly_addPad, toPoly_map_mul, toPoly_cons (0 : F), ← hc, ih, toPoly_cons]
      ring_nf
      rw [map_zero]
      ring

theorem length_rawConv {a b : List F} (ha : a ≠ []) (hb : b ≠ []) :
    (rawConv a b).length = a.length + b.length - 1 := by
  induction a with
  | nil => exact absurd rfl ha
  | cons x xs ih =>
    rw [rawConv]
    rcases hc : rawConv xs b with _ | ⟨c, cs⟩
    · rcases hxs : xs with _ | ⟨y, ys⟩
      · simp
      · exfalso
        have : (rawConv xs b).length = xs.length + b.length - 1 := by
          apply ih
          rw [hxs]; exact List.cons_ne_nil _ _
        rw [hc, hxs] at this
        simp at this
        rcases hbb : b with _ | ⟨z, zs⟩
        · exact hb hbb
        · rw [hbb] at this
          simp at this
          omega
    · have hxs : xs ≠ [] := by
        intro h0
        rw [h0] at hc
        simp [rawConv] at hc
      have hlen := ih hxs
      rw [hc] at hlen
      show (addPad (b.map (x * ·)) (0 :: c :: cs)).length = _
      rw [length_addPad]
      simp only [List.length_map, List.length_cons]
      rcases hbb : b with _ | ⟨z, zs⟩
      · exact absurd hbb hb
      · subst hbb
        simp only [List.length_cons] at hlen ⊢
        rw [Nat.max_def]
        split_ifs <;> omega

theorem toPoly_polyAdd (a b : List F) : toPoly (polyAdd a b) = toPoly a + toPoly b := by
  rw [polyAdd, toPoly_trim, toPoly_addPad]

theorem toPoly_polyMul (a b : List F) : toPoly (polyMul a b) = toPoly a * toPoly b := by
  rw [polyMul, toPoly_trim, toPoly_rawConv]

theorem trimmed_polyAdd (a b : List F) : Trimmed (polyAdd a b) := trim_trimmed _

theorem trimmed_polyMul (a b : List F) : Trimmed (polyMul a b) := trim_trimmed _

/-! ### Degree lemmas for coefficient lists -/

theorem degree_toPoly_lt (l : List F) : (toPoly l).degree < (l.length : ℕ) := by
  rw [degree_lt_iff_coeff_zero]
  intro m hm
  rw [coeff_toPoly]
  exact getD_eq_zero_of_length_le (by exact_mod_cast hm)

theorem natDegree_toPoly_le (l : List F) : (toPoly l).natDegree ≤ l.length - 1 := by
  rw [natDegree_le_iff_coeff_eq_zero]
  intro m hm
  rw [coeff_toPoly]
  exact getD_eq_zero_of_length_le (by omega)

theorem toPoly_ne_zero {l : List F} (h : Trimmed l) (hne : l ≠ []) : toPoly l ≠ 0 := by
  intro h0
  apply trimmed_getD_last_ne_zero h hne
  rw [← coeff_toPoly, h0, coeff_zero]

theorem natDegree_toPoly_trimmed {l : List F} (h : Trimmed l) (hne : l ≠ []) :
    (toPoly l).natDegree = l.length - 1 := by
  apply le_antisymm (natDegree_toPoly_le l)
  apply le_natDegree_of_ne_zero
  rw [coeff_toPoly]
  exact trimmed_getD_last_ne_zero h hne

theorem leadingCoeff_toPoly_trimmed {l : List F} (h : Trimmed l) (hne : l ≠ []) :
    (toPoly l).leadingCoeff = l.getD (l.length - 1) 0 := by
  rw [leadingCoeff, natDegree_toPoly_trimmed h hne, coeff_toPoly]

theorem getLast?_eq_getD {l : List F} (hne : l ≠ []) :
    l.getLast? = some (l.getD (l.length - 1) 0) := by
  rcases List.exists_cons_of_ne_nil hne with ⟨a, as, rfl⟩
  rw [List.getLast?_eq_getLast _ (List.cons_ne_nil a as), List.getLast_eq_getElem,
    List.getD_eq_getElem]

/-- A trimmed list ending in `1` denotes a monic polynomial of degree
`length - 1`. -/
theorem monic_of_getLast?_one {l : List F} (h : l.getLast? = some 1) :
    Trimmed l ∧ (toPoly l).Monic ∧ (toPoly l).natDegree = l.length - 1 := by
  have hne : l ≠ [] := by
    intro h0
    rw [h0] at h
    exact Option.noConfusion h
  have hlast : l.getD (l.length - 1) 0 = 1 := by
    rw [getLast?_eq_getD hne] at h
    exact Option.some.inj h
  have htr : Trimmed l := by
    apply trimmed_of_getLast?_ne_zero
    intro c hc
    rw [getLast?_eq_getD hne, hlast] at hc
    rw [← Option.some.inj hc]
    exact one_ne_zero
  refine ⟨htr, ?_, natDegree_toPoly_trimmed htr hne⟩
  rw [Monic, leadingCoeff_toPoly_trimmed htr hne, hlast]

/-! ### The bitwise power-of-two test `n & (n - 1) == 0` -/

theorem two_pow_and_pred (i : ℕ) : 2 ^ i &&& (2 ^ i - 1) = 0 := by
  apply Nat.eq_of_testBit_eq
  intro j
  rw [Nat.testBit_land, Nat.testBit_two_pow, Nat.testBit_two_pow_sub_one, Nat.zero_testBit]
  by_cases h : i = j <;> simp [h]

theorem pow2_of_and_pred {n : ℕ} (hn : n ≠ 0) (h : n &&& (n - 1) = 0) :
    ∃ k, n = 2 ^ k := by
  induction n using Nat.strong_induction_on with
  | _ n ih =>
    rcases Nat.even_or_odd n with he | ho
    · rcases he with ⟨m, hm⟩
      have hm2 : n = 2 * m := by omega
      have hmne : m ≠ 0 := by omega
      have hstep : m &&& (m - 1) = 0 := by
        apply Nat.eq_of_testBit_eq
        intro j
        rw [Nat.testBit_land, Nat.zero_testBit]
        have := congrArg (fun x => x.testBit (j + 1)) h
        simp only [Nat.testBit_land, Nat.zero_testBit] at this
        rw [Nat.testBit_succ, Nat.testBit_succ] at this
        have h1 : n / 2 = m := by omega
        have h2 : (n - 1) / 2 = m - 1 := by omega
        rwa [h1, h2] at this
      rcases ih m (by omega) hmne hstep with ⟨k, hk⟩
      exact ⟨k + 1, by rw [hm2, hk, pow_succ]; ring⟩
    · rcases ho with ⟨m, hmo⟩
      rcases Nat.eq_or_lt_of_le (Nat.one_le_iff_ne_zero.mpr hn) with h1 | h1
      · exact ⟨0, h1.symm⟩
      · exfalso
        have hn2 : n / 2 ≠ 0 := by omega
        rcases Nat.exists_most_significant_bit hn2 with ⟨j, hj, _⟩
        have hbit : n.testBit (j + 1) = true := by rw [Nat.testBit_succ]; exact hj
        have hbit' : (n - 1).testBit (j + 1) = true := by
          rw [Nat.testBit_succ]
          have : (n - 1) / 2 = n / 2 := by omega
          rw [this]
          exact hj
        have := congrArg (fun x => x.testBit (j + 1)) h
        simp only [Nat.testBit_land, Nat.zero_testBit, hbit, hbit'] at this
        exact Bool.noConfusion this

theorem log2fuel_pow : ∀ fuel n, n ≤ fuel → ∀ k, n = 2 ^ k → log2fuel fuel n = k := by
  intro fuel
  induction fuel with
  | zero =>
    intro n hn k hk
    exfalso
    have : (0 : ℕ) < 2 ^ k := Nat.pos_pow_of_pos k (by omega)
    omega
  | succ fuel ih =>
    intro n hn k hk
    cases k with
    | zero =>
      rw [hk]
      simp [log2fuel]
    | succ k' =>
      have h2 : 2 ≤ n := by
        rw [hk]
        calc 2 = 2 ^ 1 := (pow_one 2).symm
        _ ≤ 2 ^ (k' + 1) := Nat.pow_le_pow_right (by omega) (by omega)
      rw [log2fuel, if_pos h2]
      have hdiv : n / 2 = 2 ^ k' := by
        rw [hk, pow_succ]
        omega
      have hle : n / 2 ≤ fuel := by omega
      rw [ih (n / 2) hle k' hdiv]

/-! ### Exactness of the monic FFT multiplication -/

theorem getD_addPad (x y : List F) (i : ℕ) :
    (addPad x y).getD i 0 = x.getD i 0 + y.getD i 0 := by
  rw [← coeff_toPoly, toPoly_addPad, coeff_add, coeff_toPoly, coeff_toPoly]

theorem chunkFold_nil (m : ℕ) : ∀ fuel, chunkFold m fuel ([] : List F) = [] := by
  intro fuel
  induction fuel with
  | zero => simp [chunkFold]
  | succ fuel ih =>
    show addPad (([] : List F).take m) (chunkFold m fuel (([] : List F).drop m)) = []
    simp only [List.take_nil, List.drop_nil, ih]
    rfl

theorem chunkFold_short {m : ℕ} {c : List F} (h : c.length ≤ m) :
    ∀ fuel, chunkFold m fuel c = c.take m := by
  intro fuel
  induction fuel with
  | zero => simp [chunkFold]
  | succ fuel _ =>
    show addPad (c.take m) (chunkFold m fuel (c.drop m)) = c.take m
    rw [List.drop_eq_nil_of_le h, chunkFold_nil]
    rcases c.take m with _ | ⟨z, zs⟩ <;> rfl

theorem chunkFold_wrap {m : ℕ} (hm : 1 ≤ m) {c : List F} (hc : c.length = m + 1) :
    chunkFold m c.length c = addPad (c.take m) [c.getD m 0] := by
  have hne : c ≠ [] := by
    intro h0
    rw [h0] at hc
    simp at hc
  rw [hc]
  show addPad (c.take m) (chunkFold m m (c.drop m)) = _
  have hdrop : c.drop m = [c.getD m 0] := by
    have h1 : c.drop m = c.getD m 0 :: c.drop (m + 1) := by
      rw [List.getD_eq_getElem _ _ (by omega)]
      exact List.drop_eq_getElem_cons (by omega)
    rw [h1, List.drop_eq_nil_of_le (by omega)]
  rw [hdrop, chunkFold_short (by simp [hm]) m]
  have htake : List.take m [c.getD m 0] = [c.getD m 0] :=
    List.take_of_length_le (by simp [hm])
  rw [htake]

theorem padTo_eq_self {m : ℕ} {l : List F} (h : l.length = m) : padTo m l = l := by
  rw [padTo, h, Nat.sub_self, List.replicate_zero, List.append_nil]

/-- Unconditional description of the `multiply_pow2_monic_polys` body once
all guards pass: the inverse transform wraps the true product's top
coefficient onto the constant term. -/
theorem fftMulModel_spec {a b : List F} {d : ℕ} (hd : 1 ≤ d)
    (hla : a.length = d + 1) (hlb : b.length = d + 1) :
    fftMulModel (2 * d) a b =
      addPad ((rawConv a b).take (2 * d)) [(rawConv a b).getD (2 * d) 0] := by
  have hane : a ≠ [] := by intro h0; rw [h0] at hla; simp at hla
  have hbne : b ≠ [] := by intro h0; rw [h0] at hlb; simp at hlb
  have hclen : (rawConv a b).length = 2 * d + 1 := by
    rw [length_rawConv hane hbne, hla, hlb]
    omega
  rw [fftMulModel]
  rw [chunkFold_wrap (by omega) hclen]
  apply padTo_eq_self
  rw [length_addPad, List.length_take, hclen, List.length_singleton]
  omega

theorem getD_singleton_succ (x : F) (n : ℕ) : ([x] : List F).getD (n + 1) 0 = 0 := rfl

theorem getD_take {l : List F} {m i : ℕ} (h : i < m) :
    (l.take m).getD i 0 = l.getD i 0 := by
  rcases Nat.lt_or_ge i l.length with hi | hi
  · rw [List.getD_eq_getElem _ _ (by rw [List.length_take]; omega),
      List.getD_eq_getElem _ _ hi]
    exact List.getElem_take l
  · rw [getD_eq_zero_of_length_le (by rw [List.length_take]; omega),
      getD_eq_zero_of_length_le hi]

/-- With all guards passed and the subleading product coefficient nonzero,
`multiply_pow2_monic_polys` returns the exact schoolbook product. -/
theorem multiply_pow2_monic_polys_exact {a b : List F} {d : ℕ}
    (hpow : ∃ i, d = 2 ^ i) (hd : 1 ≤ d)
    (hla : a.length = d + 1) (hlb : b.length = d + 1)
    (hma : a.getLast? = some 1) (hmb : b.getLast? = some 1)
    (hkey : (rawConv a b).getD (2 * d - 1) 0 ≠ 0) :
    multiply_pow2_monic_polys a b = some (rawConv a b) := by
  have hane : a ≠ [] := by intro h0; rw [h0] at hla; simp at hla
  have hbne : b ≠ [] := by intro h0; rw [h0] at hlb; simp at hlb
  have hclen : (rawConv a b).length = 2 * d + 1 := by
    rw [length_rawConv hane hbne, hla, hlb]; omega
  obtain ⟨tra, mona, nda⟩ := monic_of_getLast?_one hma
  obtain ⟨trb, monb, ndb⟩ := monic_of_getLast?_one hmb
  have hnda : (toPoly a).natDegree = d := by rw [nda, hla]; omega
  have hndb : (toPoly b).natDegree = d := by rw [ndb, hlb]; omega
  have htop : (rawConv a b).getD (2 * d) 0 = 1 := by
    rw [← coeff_toPoly, toPoly_rawConv]
    have h2d : 2 * d = (toPoly a).natDegree + (toPoly b).natDegree := by
      rw [hnda, hndb]; omega
    rw [h2d, coeff_mul_degree_add_degree, mona.leadingCoeff, monb.leadingCoeff, one_mul]
  -- pass the guards
  have hdega : arkDegree a = d := by rw [arkDegree, hla]; omega
  have hdegb : arkDegree b = d := by rw [arkDegree, hlb]; omega
  obtain ⟨i, rfl⟩ := hpow
  have hpos : 0 < 2 ^ i := Nat.pos_pow_of_pos i (by omega)
  rw [multiply_pow2_monic_polys,
    if_neg (show ¬ arkDegree a ≠ arkDegree b by rw [hdega, hdegb]; exact fun h => h rfl),
    if_neg (show ¬ arkDegree a = 0 by rw [hdega]; omega),
    if_neg (show ¬ arkDegree a &&& (arkDegree a - 1) ≠ 0 by
      rw [hdega, two_pow_and_pred]; exact fun h => h rfl),
    if_neg (show ¬ a.getLast? ≠ some 1 from fun h => h hma),
    if_neg (show ¬ b.getLast? ≠ some 1 from fun h => h hmb), hdega]
  -- the inverse transform wraps the leading one onto the constant term
  have hw := fftMulModel_spec (d := 2 ^ i) (by omega) hla hlb
  rw [htop] at hw
  have hwlen : (fftMulModel (2 * 2 ^ i) a b).length = 2 * 2 ^ i := by
    rw [hw, length_addPad, List.length_take, hclen, List.length_singleton]
    omega
  have hwcoeff : ∀ j, j < 2 * 2 ^ i → (fftMulModel (2 * 2 ^ i) a b).getD j 0 =
      (rawConv a b).getD j 0 + (if j = 0 then 1 else 0) := by
    intro j hj
    rw [hw, getD_addPad, getD_take hj]
    cases j with
    | zero => rw [List.getD_cons_zero, if_pos rfl]
    | succ j' =>
      rw [getD_singleton_succ, if_neg (by omega)]
  have hwlast : (fftMulModel (2 * 2 ^ i) a b).getD
      ((fftMulModel (2 * 2 ^ i) a b).length - 1) 0 ≠ 0 := by
    rw [hwlen, hwcoeff (2 * 2 ^ i - 1) (by omega), if_neg (by omega), add_zero]
    exact hkey
  have hwne : fftMulModel (2 * 2 ^ i) a b ≠ [] := by
    intro h0
    rw [h0] at hwlen
    simp only [List.length_nil] at hwlen
    omega
  have hwtrim : trim (fftMulModel (2 * 2 ^ i) a b) = fftMulModel (2 * 2 ^ i) a b := by
    apply trimmed_of_getLast?_ne_zero
    intro x hx
    rw [getLast?_eq_getD hwne] at hx
    rw [← Option.some.inj hx]
    exact hwlast
  rw [hwtrim]
  obtain ⟨w0, rest, hwc⟩ : ∃ w0 rest, fftMulModel (2 * 2 ^ i) a b = w0 :: rest := by
    rcases hx : fftMulModel (2 * 2 ^ i) a b with _ | ⟨y, ys⟩
    · exact absurd hx hwne
    · exact ⟨y, ys, rfl⟩
  rw [hwc]
  show some ((w0 - 1) :: (rest ++ [1])) = some (rawConv a b)
  congr 1
  have hrl : rest.length = 2 * 2 ^ i - 1 := by
    have := hwlen
    rw [hwc] at this
    simp only [List.length_cons] at this
    omega
  have hw0 : w0 = (rawConv a b).getD 0 0 + 1 := by
    have h0 := hwcoeff 0 (by omega)
    rw [hwc, List.getD_cons_zero, if_pos rfl] at h0
    exact h0
  have hrest : ∀ j, j + 1 < 2 * 2 ^ i → rest.getD j 0 = (rawConv a b).getD (j + 1) 0 := by
    intro j hjb
    have hj := hwcoeff (j + 1) hjb
    rw [hwc, List.getD_cons_succ, if_neg (by omega), add_zero] at hj
    exact hj
  apply ext_getD
  · simp only [List.length_cons, List.length_append, List.length_singleton,
      List.length_nil, hrl, hclen]
    omega
  · intro j
    cases j with
    | zero =>
      rw [List.getD_cons_zero, hw0]
      ring
    | succ j' =>
      rw [List.getD_cons_succ]
      rcases Nat.lt_or_ge j' rest.length with hj1 | hj1
      · rw [List.getD_append _ _ _ _ hj1, hrest j' (by rw [hrl] at hj1; omega)]
      · rcases Nat.eq_or_lt_of_le hj1 with hj2 | hj2
        · have hsub : j' - rest.length = 0 := by omega
          rw [List.getD_append_right _ _ _ _ hj1, hsub, List.getD_cons_zero]
          have hje : j' + 1 = 2 * 2 ^ i := by rw [hrl] at hj2; omega
          rw [hje, htop]
        · rw [List.getD_append_right _ _ _ _ hj1,
            getD_eq_zero_of_length_le (by rw [List.length_singleton]; omega),
            getD_eq_zero_of_length_le (by rw [hclen]; rw [hrl] at hj2; omega)]

/-! ### The true subproduct layers -/

theorem toPoly_mkLeaf (r : F) : toPoly (mkLeaf r) = X - C r := by
  rw [mkLeaf, toPoly_cons, toPoly_cons, toPoly_nil]
  simp only [map_neg, map_one, mul_zero, add_zero, mul_one]
  ring

theorem mkLeaf_getLast? (r : F) : (mkLeaf r).getLast? = some 1 := rfl

theorem mkLeaf_length (r : F) : (mkLeaf r).length = 2 := rfl

/-- Schoolbook product of two monic lists: exact lengths, monic again, and
no trimming happens. -/
theorem polyMul_monic {a b : List F} (hma : a.getLast? = some 1)
    (hmb : b.getLast? = some 1) :
    polyMul a b = rawConv a b ∧ (polyMul a b).length = a.length + b.length - 1 ∧
      (polyMul a b).getLast? = some 1 := by
  obtain ⟨tra, mona, nda⟩ := monic_of_getLast?_one hma
  obtain ⟨trb, monb, ndb⟩ := monic_of_getLast?_one hmb
  have hane : a ≠ [] := by intro h0; rw [h0] at hma; exact Option.noConfusion hma
  have hbne : b ≠ [] := by intro h0; rw [h0] at hmb; exact Option.noConfusion hmb
  have hdeg : (toPoly a).natDegree + (toPoly b).natDegree = a.length + b.length - 2 := by
    rw [nda, ndb]
    have h1 : 1 ≤ a.length := List.length_pos.mpr hane
    have h2 : 1 ≤ b.length := List.length_pos.mpr hbne
    omega
  have hclen : (rawConv a b).length = a.length + b.length - 1 :=
    length_rawConv hane hbne
  have htop : (rawConv a b).getD ((rawConv a b).length - 1) 0 = 1 := by
    rw [← coeff_toPoly, toPoly_rawConv, hclen]
    have h1 : 1 ≤ a.length := List.length_pos.mpr hane
    have h2 : 1 ≤ b.length := List.length_pos.mpr hbne
    have he : a.length + b.length - 1 - 1 = (toPoly a).natDegree + (toPoly b).natDegree := by
      rw [hdeg]; omega
    rw [he, coeff_mul_degree_add_degree, mona.leadingCoeff, monb.leadingCoeff, one_mul]
  have hcne : rawConv a b ≠ [] := by
    intro h0
    rw [h0] at hclen
    simp only [List.length_nil] at hclen
    have h1 : 1 ≤ a.length := List.length_pos.mpr hane
    have h2 : 1 ≤ b.length := List.length_pos.mpr hbne
    omega
  have htr : trim (rawConv a b) = rawConv a b := by
    apply trimmed_of_getLast?_ne_zero
    intro x hx
    rw [getLast?_eq_getD hcne, htop] at hx
    rw [← Option.some.inj hx]
    exact one_ne_zero
  refine ⟨?_, ?_, ?_⟩
  · rw [polyMul, htr]
  · rw [polyMul, htr, hclen]
  · rw [polyMul, htr, getLast?_eq_getD hcne, htop]

theorem linearProduct_aux (rs : List F) :
    ∀ acc : List F, acc.getLast? = some 1 →
      (rs.foldl (fun acc r => polyMul acc (mkLeaf r)) acc).getLast? = some 1 ∧
      (rs.foldl (fun acc r => polyMul acc (mkLeaf r)) acc).length = acc.length + rs.length ∧
      toPoly (rs.foldl (fun acc r => polyMul acc (mkLeaf r)) acc) =
        toPoly acc * (rs.map (fun r => X - C r)).prod := by
  induction rs with
  | nil =>
    intro acc hacc
    refine ⟨hacc, by simp, by simp⟩
  | cons r rs ih =>
    intro acc hacc
    obtain ⟨h1, h2, h3⟩ := polyMul_monic hacc (mkLeaf_getLast? r)
    have hstep := ih (polyMul acc (mkLeaf r)) h3
    simp only [List.foldl_cons]
    refine ⟨hstep.1, ?_, ?_⟩
    · rw [hstep.2.1, h2, mkLeaf_length]
      have : acc ≠ [] := by
        intro h0; rw [h0] at hacc; exact Option.noConfusion hacc
      have : 1 ≤ acc.length := List.length_pos.mpr this
      simp only [List.length_cons]
      omega
    · rw [hstep.2.2, toPoly_polyMul, toPoly_mkLeaf]
      simp only [List.map_cons, List.prod_cons]
      ring

theorem linearProduct_getLast? (rs : List F) : (linearProduct rs).getLast? = some 1 :=
  (linearProduct_aux rs [1] rfl).1

theorem linearProduct_length (rs : List F) : (linearProduct rs).length = rs.length + 1 := by
  have := (linearProduct_aux rs [1] rfl).2.1
  rw [linearProduct, this, List.length_singleton]
  omega

theorem toPoly_linearProduct (rs : List F) :
    toPoly (linearProduct rs) = (rs.map (fun r => X - C r)).prod := by
  have := (linearProduct_aux rs [1] rfl).2.2
  rw [linearProduct, this]
  have h1 : toPoly ([1] : List F) = 1 := by
    rw [toPoly_cons, toPoly_nil]
    simp
  rw [h1, one_mul]

theorem linearProduct_append (xs ys : List F) :
    linearProduct (xs ++ ys) = polyMul (linearProduct xs) (linearProduct ys) := by
  apply trimmed_ext
  · exact (monic_of_getLast?_one (linearProduct_getLast? _)).1
  · exact (monic_of_getLast?_one (polyMul_monic (linearProduct_getLast? xs)
      (linearProduct_getLast? ys)).2.2).1
  · rw [toPoly_linearProduct, toPoly_polyMul, toPoly_linearProduct, toPoly_linearProduct,
      List.map_append, List.prod_append]

theorem blockRoots_split (roots : List F) (l j : ℕ) :
    blockRoots roots (l + 1) j =
      blockRoots roots l (2 * j) ++ blockRoots roots l (2 * j + 1) := by
  rw [blockRoots, blockRoots, blockRoots]
  have hpow : 2 ^ (l + 1) = 2 ^ l + 2 ^ l := by rw [pow_succ]; ring
  have hidx : j * (2 ^ l + 2 ^ l) = 2 * j * 2 ^ l := by ring
  rw [hpow, hidx, List.take_add, List.drop_drop]
  have hidx2 : 2 * j * 2 ^ l + 2 ^ l = (2 * j + 1) * 2 ^ l := by ring
  rw [hidx2]

theorem blockProd_split (roots : List F) (l j : ℕ) :
    blockProd roots (l + 1) j =
      polyMul (blockProd roots l (2 * j)) (blockProd roots l (2 * j + 1)) := by
  rw [blockProd, blockRoots_split, linearProduct_append, blockProd, blockProd]

theorem blockRoots_length {roots : List F} {k l j : ℕ} (hn : roots.length = 2 ^ k)
    (hl : l ≤ k) (hj : j < 2 ^ (k - l)) :
    (blockRoots roots l j).length = 2 ^ l := by
  rw [blockRoots, List.length_take, List.length_drop, hn]
  have h1 : (j + 1) * 2 ^ l ≤ 2 ^ k := by
    calc (j + 1) * 2 ^ l ≤ 2 ^ (k - l) * 2 ^ l := by
          apply Nat.mul_le_mul_right
          omega
    _ = 2 ^ k := by
          rw [← pow_add]
          congr 1
          omega
  have h2 : j * 2 ^ l + 2 ^ l ≤ 2 ^ k := by
    calc j * 2 ^ l + 2 ^ l = (j + 1) * 2 ^ l := by ring
    _ ≤ 2 ^ k := h1
  omega

theorem blockProd_length {roots : List F} {k l j : ℕ} (hn : roots.length = 2 ^ k)
    (hl : l ≤ k) (hj : j < 2 ^ (k - l)) :
    (blockProd roots l j).length = 2 ^ l + 1 := by
  rw [blockProd, linearProduct_length, blockRoots_length hn hl hj]

theorem blockProd_getLast? (roots : List F) (l j : ℕ) :
    (blockProd roots l j).getLast? = some 1 :=
  linearProduct_getLast? _

/-- The non-degeneracy flag, unfolded. -/
theorem nonDegenerate_spec {roots : List F} {k : ℕ} (h : nonDegenerate roots k = true) :
    ∀ l, l < k → ∀ j, j < roots.length / 2 ^ (l + 1) →
      (blockProd roots (l + 1) j).getD (2 ^ (l + 1) - 1) 0 ≠ 0 := by
  intro l hl j hj
  rw [nonDegenerate, List.all_eq_true] at h
  have h1 := h l (List.mem_range.mpr hl)
  rw [List.all_eq_true] at h1
  have h2 := h1 j (List.mem_range.mpr hj)
  rwa [decide_eq_true_eq] at h2

/-! ### Building the layers -/

theorem getD_map_range {α : Type} (f : ℕ → α) (d : α) (n i : ℕ) :
    ((List.range n).map f).getD i d = if i < n then f i else d := by
  rcases Nat.lt_or_ge i n with h | h
  · rw [if_pos h, List.getD_eq_getElem _ _ (by simp [h])]
    simp
  · rw [if_neg (by omega), List.getD_eq_default _ _ (by simp [h])]

theorem trueLayer_length (roots : List F) (l : ℕ) :
    (trueLayer roots l).length = roots.length / 2 ^ l := by
  rw [trueLayer, List.length_map, List.length_range]

theorem trueLayer_getD {roots : List F} {l j : ℕ} (h : j < roots.length / 2 ^ l) :
    (trueLayer roots l).getD j [] = blockProd roots l j := by
  rw [trueLayer, getD_map_range, if_pos h]

theorem multiply_blockProd {roots : List F} {k l j : ℕ} (hn : roots.length = 2 ^ k)
    (hl : l < k) (hj : j < 2 ^ (k - (l + 1)))
    (hnd : (blockProd roots (l + 1) j).getD (2 ^ (l + 1) - 1) 0 ≠ 0) :
    multiply_pow2_monic_polys (blockProd roots l (2 * j)) (blockProd roots l (2 * j + 1)) =
      some (blockProd roots (l + 1) j) := by
  have hj2 : 2 * j < 2 ^ (k - l) := by
    have : k - l = (k - (l + 1)) + 1 := by omega
    rw [this, pow_succ]
    omega
  have hj21 : 2 * j + 1 < 2 ^ (k - l) := by
    have : k - l = (k - (l + 1)) + 1 := by omega
    rw [this, pow_succ]
    omega
  have hl1 := blockProd_length hn (le_of_lt hl) hj2
  have hl2 := blockProd_length hn (le_of_lt hl) hj21
  have hraw := (polyMul_monic (blockProd_getLast? roots l (2 * j))
    (blockProd_getLast? roots l (2 * j + 1))).1
  have hkey : (rawConv (blockProd roots l (2 * j)) (blockProd roots l (2 * j + 1))).getD
      (2 * 2 ^ l - 1) 0 ≠ 0 := by
    rw [← hraw, ← blockProd_split]
    have he : 2 * 2 ^ l - 1 = 2 ^ (l + 1) - 1 := by rw [pow_succ]; omega
    rw [he]
    exact hnd
  have := multiply_pow2_monic_polys_exact (a := blockProd roots l (2 * j))
    (b := blockProd roots l (2 * j + 1)) ⟨l, rfl⟩
    (Nat.pos_pow_of_pos l (by omega)) hl1 hl2
    (blockProd_getLast? roots l (2 * j)) (blockProd_getLast? roots l (2 * j + 1)) hkey
  rw [this, ← hraw, ← blockProd_split]

theorem pairMulLayer_spec :
    ∀ q ps : List (List F), ps.length = 2 * q.length →
      (∀ t, t < q.length →
        multiply_pow2_monic_polys (ps.getD (2 * t) []) (ps.getD (2 * t + 1) []) =
          some (q.getD t [])) →
      pairMulLayer ps = some q := by
  intro q
  induction q with
  | nil =>
    intro ps hlen _
    simp only [List.length_nil, Nat.mul_zero] at hlen
    have hps : ps = [] := List.length_eq_zero.mp hlen
    rw [hps]
    rfl
  | cons q0 q' ih =>
    intro ps hlen h
    obtain ⟨p0, ps1, rfl⟩ : ∃ p0 ps1, ps = p0 :: ps1 := by
      rcases ps with _ | ⟨x, xs⟩
      · exfalso
        simp only [List.length_nil, List.length_cons] at hlen
        omega
      · exact ⟨x, xs, rfl⟩
    obtain ⟨p1, ps', rfl⟩ : ∃ p1 ps', ps1 = p1 :: ps' := by
      rcases ps1 with _ | ⟨x, xs⟩
      · exfalso
        simp only [List.length_nil, List.length_cons] at hlen
        omega
      · exact ⟨x, xs, rfl⟩
    have h0 := h 0 (by simp)
    simp only [Nat.mul_zero, List.getD_cons_zero, Nat.zero_add, List.getD_cons_succ] at h0
    have hrec : pairMulLayer ps' = some q' := by
      apply ih
      · simp only [List.length_cons] at hlen
        omega
      · intro t ht
        have ht1 := h (t + 1) (by simp only [List.length_cons]; omega)
        have he1 : 2 * (t + 1) = 2 * t + 1 + 1 := by omega
        rw [he1, List.getD_cons_succ, List.getD_cons_succ, List.getD_cons_succ,
          List.getD_cons_succ] at ht1
        exact ht1
    simp only [pairMulLayer, h0, hrec, Option.bind_eq_bind, Option.some_bind]
    rfl

theorem buildLayers_spec {roots : List F} {k : ℕ} (hn : roots.length = 2 ^ k)
    (hnd : nonDegenerate roots k = true) :
    ∀ m l, l + m = k →
      buildLayers (trueLayer roots l) m =
        some ((List.range (m + 1)).map (fun t => trueLayer roots (l + t))) := by
  intro m
  induction m with
  | zero =>
    intro l _
    rw [buildLayers]
    rfl
  | succ m ih =>
    intro l hl
    have hlk : l < k := by omega
    have hklsucc : k - l = (k - (l + 1)) + 1 := by omega
    have hdivl : roots.length / 2 ^ l = 2 ^ (k - l) := by
      rw [hn, Nat.pow_div (by omega) (by omega)]
    have hdivl1 : roots.length / 2 ^ (l + 1) = 2 ^ (k - (l + 1)) := by
      rw [hn, Nat.pow_div (by omega) (by omega)]
    have hpair : pairMulLayer (trueLayer roots l) = some (trueLayer roots (l + 1)) := by
      apply pairMulLayer_spec
      · rw [trueLayer_length, trueLayer_length, hdivl, hdivl1, hklsucc, pow_succ]
        ring
      · intro t ht
        rw [trueLayer_length, hdivl1] at ht
        have h2t : 2 * t < roots.length / 2 ^ l := by
          rw [hdivl, hklsucc, pow_succ]
          omega
        have h2t1 : 2 * t + 1 < roots.length / 2 ^ l := by
          rw [hdivl, hklsucc, pow_succ]
          omega
        rw [trueLayer_getD h2t, trueLayer_getD h2t1, trueLayer_getD (by rw [hdivl1]; exact ht)]
        exact multiply_blockProd hn hlk ht
          (nonDegenerate_spec hnd l hlk t (by rw [hdivl1]; exact ht))
    have hrec := ih (l + 1) (by omega)
    have hlist : (List.range (m + 1 + 1)).map (fun t => trueLayer roots (l + t)) =
        trueLayer roots l :: (List.range (m + 1)).map (fun t => trueLayer roots (l + 1 + t)) := by
      rw [List.range_succ_eq_map, List.map_cons, List.map_map]
      congr 1
      apply List.map_congr_left
      intro t ht
      show trueLayer roots (l + (t + 1)) = trueLayer roots (l + 1 + t)
      congr 1
      omega
    simp only [buildLayers, hpair, hrec, Option.bind_eq_bind, Option.some_bind, hlist]
    rfl

theorem map_mkLeaf_eq_trueLayer0 (roots : List F) :
    roots.map mkLeaf = trueLayer roots 0 := by
  have hlen : (roots.map mkLeaf).length = (trueLayer roots 0).length := by
    rw [List.length_map, trueLayer_length, pow_zero, Nat.div_one]
  apply List.ext_getElem hlen
  intro i h1 h2
  rw [List.getElem_map]
  have hi : i < roots.length := by rwa [List.length_map] at h1
  have hdiv : i < roots.length / 2 ^ 0 := by rwa [pow_zero, Nat.div_one]
  have := trueLayer_getD (l := 0) (j := i) hdiv
  rw [List.getD_eq_getElem _ _ h2] at this
  rw [this]
  -- blockProd at layer 0 is the single linear leaf
  rw [blockProd, blockRoots, pow_zero, Nat.mul_one, List.take_one]
  have hdrop : List.drop i roots = roots[i] :: List.drop (i + 1) roots :=
    List.drop_eq_getElem_cons hi
  rw [hdrop]
  show mkLeaf roots[i] = linearProduct [roots[i]]
  rw [linearProduct, List.foldl_cons, List.foldl_nil]
  apply trimmed_ext (monic_of_getLast?_one (mkLeaf_getLast? _)).1
    (monic_of_getLast?_one (polyMul_monic (by rfl) (mkLeaf_getLast? _)).2.2).1
  rw [toPoly_polyMul, toPoly_mkLeaf]
  have h1p : toPoly ([1] : List F) = 1 := by
    rw [toPoly_cons, toPoly_nil]
    simp
  rw [h1p, one_mul]

theorem trueLayers_length (roots : List F) (k : ℕ) :
    (trueLayers roots k).length = k + 1 := by
  rw [trueLayers, List.length_map, List.length_range]

theorem getNode_trueLayers {roots : List F} {k l j : ℕ} (hn : roots.length = 2 ^ k)
    (hl : l ≤ k) (hj : j < 2 ^ (k - l)) :
    getNode (trueLayers roots k) l j = blockProd roots l j := by
  rw [getNode, trueLayers, getD_map_range, if_pos (by omega : l < k + 1),
    trueLayer_getD (by rw [hn, Nat.pow_div hl (by omega)]; exact hj)]

theorem trueLayers_layer0_length {roots : List F} {k : ℕ} (hn : roots.length = 2 ^ k) :
    ((trueLayers roots k).getD 0 []).length = roots.length := by
  rw [trueLayers, getD_map_range, if_pos (by omega : 0 < k + 1), trueLayer_length,
    pow_zero, Nat.div_one]

/-- Under power-of-two size and non-degeneracy, `construct` succeeds and
produces exactly the true layers, with weights obtained by running the two
tree passes and inverting. -/
theorem construct_eq {roots : List F} {k : ℕ} (hn : roots.length = 2 ^ k)
    (hnd : nonDegenerate roots k = true) :
    construct roots = .success ⟨trueLayers roots k,
      (divide_down_the_tree (trueLayers roots k) k 0
        (multiply_up_the_tree (trueLayers roots k)
          (List.replicate roots.length (1 : F)) k 0)).map (·⁻¹)⟩ := by
  have hpos : 0 < 2 ^ k := Nat.pos_pow_of_pos k (by omega)
  have hlog : log2fuel roots.length roots.length = k :=
    log2fuel_pow roots.length roots.length le_rfl k hn
  have hbl := buildLayers_spec hn hnd k 0 (by omega)
  have htl : (List.range (k + 1)).map (fun t => trueLayer roots (0 + t)) =
      trueLayers roots k := by
    rw [trueLayers]
    apply List.map_congr_left
    intro t _
    show trueLayer roots (0 + t) = trueLayer roots t
    congr 1
    omega
  rw [htl] at hbl
  rw [construct,
    if_neg (show ¬ roots.length = 0 by rw [hn]; omega),
    if_neg (show ¬ roots.length &&& (roots.length - 1) ≠ 0 by
      rw [hn, two_pow_and_pred]; exact fun h => h rfl),
    hlog, map_mkLeaf_eq_trueLayer0, hbl]

/-! ### Correctness of the monic remainder -/

theorem cancelTop_length (g d : List F) : (cancelTop g d).length = g.length - 1 := by
  rw [cancelTop, List.length_map, List.length_range]

theorem getD_cancelTop (g d : List F) (n : ℕ) :
    (cancelTop g d).getD n 0 =
      if n < g.length - 1 then
        g.getD n 0 - (if g.length - d.length ≤ n then
          g.getD (g.length - 1) 0 * d.getD (n - (g.length - d.length)) 0 else 0)
      else 0 := by
  rw [cancelTop, getD_map_range]

theorem toPoly_cancelTop {g d : List F} (hmd : d.getLast? = some 1)
    (hlen : d.length ≤ g.length) (hd2 : 2 ≤ d.length) :
    toPoly (cancelTop g d) =
      toPoly g - C (g.getD (g.length - 1) 0) * toPoly d * X ^ (g.length - d.length) := by
  have hdne : d ≠ [] := by intro h0; rw [h0] at hmd; exact Option.noConfusion hmd
  have hdlast : d.getD (d.length - 1) 0 = 1 := by
    rw [getLast?_eq_getD hdne] at hmd
    exact Option.some.inj hmd
  apply Polynomial.ext
  intro n
  rw [coeff_toPoly, getD_cancelTop, coeff_sub, coeff_toPoly, coeff_mul_X_pow',
    coeff_C_mul, coeff_toPoly]
  rcases Nat.lt_or_ge n (g.length - 1) with hn | hn
  · rw [if_pos hn]
  · rw [if_neg (by omega)]
    rcases Nat.eq_or_lt_of_le hn with hn2 | hn2
    · rw [if_pos (by omega), ← hn2]
      have he : g.length - 1 - (g.length - d.length) = d.length - 1 := by omega
      rw [he, hdlast, mul_one, sub_self]
    · have hglen : g.length ≤ n := by omega
      have hdlen : d.length ≤ n - (g.length - d.length) := by omega
      rw [getD_eq_zero_of_length_le hglen]
      by_cases hs : g.length - d.length ≤ n
      · rw [if_pos hs, getD_eq_zero_of_length_le hdlen, mul_zero, zero_sub, neg_zero]
      · rw [if_neg hs, sub_zero]

theorem modMonicAux_spec {d : List F} (hmd : d.getLast? = some 1) (hd2 : 2 ≤ d.length) :
    ∀ fuel (g : List F), g.length ≤ fuel →
      toPoly (modMonicAux d fuel g) = toPoly g %ₘ toPoly d := by
  obtain ⟨trd, mond, ndd⟩ := monic_of_getLast?_one hmd
  have hdne : d ≠ [] := by intro h0; rw [h0] at hmd; exact Option.noConfusion hmd
  have hddeg : (toPoly d).degree = ((d.length - 1 : ℕ) : WithBot ℕ) := by
    rw [degree_eq_natDegree (toPoly_ne_zero trd hdne), ndd]
  intro fuel
  induction fuel with
  | zero =>
    intro g hg
    have hgnil : g = [] := List.length_eq_zero.mp (by omega)
    subst hgnil
    show toPoly (trim []) = toPoly ([] : List F) %ₘ toPoly d
    rw [toPoly_nil, zero_modByMonic]
    rfl
  | succ fuel ih =>
    intro g hg
    rw [modMonicAux]
    by_cases hlt : g.length < d.length
    · rw [if_pos hlt, toPoly_trim]
      symm
      rw [modByMonic_eq_self_iff mond, hddeg]
      calc (toPoly g).degree < ((g.length : ℕ) : WithBot ℕ) := degree_toPoly_lt g
      _ ≤ ((d.length - 1 : ℕ) : WithBot ℕ) := by
          have hgle : g.length ≤ d.length - 1 := by omega
          exact_mod_cast hgle
    · rw [if_neg hlt, if_neg (by omega : ¬ d.length ≤ 1),
        ih (cancelTop g d) (by rw [cancelTop_length]; omega),
        toPoly_cancelTop hmd (by omega) hd2, sub_modByMonic]
      have hz : (C (g.getD (g.length - 1) 0) * toPoly d *
          X ^ (g.length - d.length)) %ₘ toPoly d = 0 := by
        rw [modByMonic_eq_zero_iff_dvd mond]
        exact ⟨C (g.getD (g.length - 1) 0) * X ^ (g.length - d.length), by ring⟩
      rw [hz, sub_zero]

theorem toPoly_modMonic {g d : List F} (hmd : d.getLast? = some 1) (hd2 : 2 ≤ d.length) :
    toPoly (modMonic g d) = toPoly g %ₘ toPoly d :=
  modMonicAux_spec hmd hd2 g.length g le_rfl

/-! ### Correctness of the down-the-tree pass -/

theorem blockRoots_zero {roots : List F} {j : ℕ} (hj : j < roots.length) :
    blockRoots roots 0 j = [roots.getD j 0] := by
  rw [blockRoots, pow_zero, Nat.mul_one, List.take_one]
  have hdrop : List.drop j roots = roots[j] :: List.drop (j + 1) roots :=
    List.drop_eq_getElem_cons hj
  rw [hdrop, List.head?_cons, Option.toList_some, List.getD_eq_getElem _ _ hj]

theorem eval_blockProd_root {roots : List F} {l j : ℕ} {r : F}
    (hr : r ∈ blockRoots roots l j) :
    (toPoly (blockProd roots l j)).eval r = 0 := by
  rw [blockProd, toPoly_linearProduct, eval_list_prod]
  apply List.prod_eq_zero
  have : (X - C r).eval r = 0 := by simp
  rw [← this]
  rw [List.map_map]
  exact List.mem_map_of_mem _ hr

theorem eval_modByMonic_root {p q : Polynomial F} (mq : q.Monic) {r : F}
    (hr : q.eval r = 0) : (p %ₘ q).eval r = p.eval r := by
  conv_rhs => rw [← modByMonic_add_div p mq]
  rw [eval_add, eval_mul, hr, zero_mul, add_zero]

theorem blockProd_monic {roots : List F} (l j : ℕ) :
    (toPoly (blockProd roots l j)).Monic :=
  (monic_of_getLast?_one (blockProd_getLast? roots l j)).2.1

theorem blockProd_natDegree {roots : List F} {k l j : ℕ} (hn : roots.length = 2 ^ k)
    (hl : l ≤ k) (hj : j < 2 ^ (k - l)) :
    (toPoly (blockProd roots l j)).natDegree = 2 ^ l := by
  rw [(monic_of_getLast?_one (blockProd_getLast? roots l j)).2.2,
    blockProd_length hn hl hj, Nat.add_sub_cancel]

theorem blockProd_degree {roots : List F} {k l j : ℕ} (hn : roots.length = 2 ^ k)
    (hl : l ≤ k) (hj : j < 2 ^ (k - l)) :
    (toPoly (blockProd roots l j)).degree = ((2 ^ l : ℕ) : WithBot ℕ) := by
  rw [degree_eq_natDegree (blockProd_monic l j).ne_zero, blockProd_natDegree hn hl hj]

/-- The down-the-tree pass evaluates its input at every root of the block,
provided the layers hold the true products and the degree is small
enough. -/
theorem divide_down_spec {roots : List F} {k : ℕ} (hn : roots.length = 2 ^ k) :
    ∀ l j (g : List F), l ≤ k → j < 2 ^ (k - l) →
      (toPoly g).degree < ((2 ^ l : ℕ) : WithBot ℕ) →
      divide_down_the_tree (trueLayers roots k) l j g =
        (blockRoots roots l j).map (fun r => (toPoly g).eval r) := by
  intro l
  induction l with
  | zero =>
    intro j g _ hj hdeg
    have hjn : j < roots.length := by
      rw [hn]
      calc j < 2 ^ (k - 0) := hj
      _ ≤ 2 ^ k := by rw [Nat.sub_zero]
    show [g.getD 0 0] = _
    rw [blockRoots_zero hjn, List.map_singleton]
    have hg : toPoly g = C (g.getD 0 0) := by
      rw [← coeff_toPoly]
      apply eq_C_of_degree_le_zero
      apply Nat.WithBot.lt_one_iff_le_zero.mp
      rw [pow_zero] at hdeg
      exact_mod_cast hdeg
    rw [hg, eval_C]
  | succ l ih =>
    intro j g hl hj hdeg
    have hlk : l ≤ k := by omega
    have hj2 : 2 * j < 2 ^ (k - l) := by
      have : k - l = (k - (l + 1)) + 1 := by omega
      rw [this, pow_succ]; omega
    have hj21 : 2 * j + 1 < 2 ^ (k - l) := by
      have : k - l = (k - (l + 1)) + 1 := by omega
      rw [this, pow_succ]; omega
    have hnode₀ := getNode_trueLayers hn hlk hj2
    have hnode₁ := getNode_trueLayers hn hlk hj21
    have hlen₀ := blockProd_length hn hlk hj2
    have hlen₁ := blockProd_length hn hlk hj21
    have hmod₀ : toPoly (modMonic g (blockProd roots l (2 * j))) =
        toPoly g %ₘ toPoly (blockProd roots l (2 * j)) :=
      toPoly_modMonic (blockProd_getLast? roots l (2 * j))
        (by rw [hlen₀]; have := Nat.pos_pow_of_pos l (show 0 < 2 by omega); omega)
    have hmod₁ : toPoly (modMonic g (blockProd roots l (2 * j + 1))) =
        toPoly g %ₘ toPoly (blockProd roots l (2 * j + 1)) :=
      toPoly_modMonic (blockProd_getLast? roots l (2 * j + 1))
        (by rw [hlen₁]; have := Nat.pos_pow_of_pos l (show 0 < 2 by omega); omega)
    have hdeg₀ : (toPoly (modMonic g (blockProd roots l (2 * j)))).degree <
        ((2 ^ l : ℕ) : WithBot ℕ) := by
      rw [hmod₀, ← blockProd_degree hn hlk hj2]
      exact degree_modByMonic_lt _ (blockProd_monic l (2 * j))
    have hdeg₁ : (toPoly (modMonic g (blockProd roots l (2 * j + 1)))).degree <
        ((2 ^ l : ℕ) : WithBot ℕ) := by
      rw [hmod₁, ← blockProd_degree hn hlk hj21]
      exact degree_modByMonic_lt _ (blockProd_monic l (2 * j + 1))
    show divide_down_the_tree (trueLayers roots k) l (2 * j)
        (modMonic g (getNode (trueLayers roots k) l (2 * j))) ++
      divide_down_the_tree (trueLayers roots k) l (2 * j + 1)
        (modMonic g (getNode (trueLayers roots k) l (2 * j + 1))) = _
    rw [hnode₀, hnode₁, ih (2 * j) _ hlk hj2 hdeg₀, ih (2 * j + 1) _ hlk hj21 hdeg₁,
      blockRoots_split, List.map_append]
    congr 1
    · apply List.map_congr_left
      intro r hr
      rw [hmod₀]
      exact eval_modByMonic_root (blockProd_monic l (2 * j)) (eval_blockProd_root hr)
    · apply List.map_congr_left
      intro r hr
      rw [hmod₁]
      exact eval_modByMonic_root (blockProd_monic l (2 * j + 1)) (eval_blockProd_root hr)

/-! ### Correctness of the up-the-tree pass -/

theorem getD_drop (l : List F) (n i : ℕ) : (l.drop n).getD i 0 = l.getD (n + i) 0 := by
  rw [List.getD_eq_getD_get?, List.getD_eq_getD_get?, List.get?_eq_getElem?,
    List.get?_eq_getElem?, List.getElem?_drop]

theorem prodLinear_eq_toPoly (B : List F) :
    (B.map (fun r => X - C r)).prod = toPoly (linearProduct B) :=
  (toPoly_linearProduct B).symm

theorem prodLinear_monic (B : List F) : ((B.map (fun r => X - C r)).prod).Monic := by
  rw [prodLinear_eq_toPoly]
  exact (monic_of_getLast?_one (linearProduct_getLast? B)).2.1

theorem prodLinear_natDegree (B : List F) :
    ((B.map (fun r => X - C r)).prod).natDegree = B.length := by
  rw [prodLinear_eq_toPoly,
    (monic_of_getLast?_one (linearProduct_getLast? B)).2.2, linearProduct_length,
    Nat.add_sub_cancel]

theorem prodExcept_monic (rs : List F) (i : ℕ) : (prodExcept rs i).Monic :=
  prodLinear_monic (rs.eraseIdx i)

theorem prodExcept_natDegree {rs : List F} {i : ℕ} (h : i < rs.length) :
    (prodExcept rs i).natDegree = rs.length - 1 := by
  rw [prodExcept, prodLinear_natDegree, List.length_eraseIdx_of_lt h]

theorem prodExcept_degree_lt {rs : List F} {i : ℕ} (h : i < rs.length) :
    (prodExcept rs i).degree < ((rs.length : ℕ) : WithBot ℕ) := by
  rw [degree_eq_natDegree (prodExcept_monic rs i).ne_zero, prodExcept_natDegree h]
  exact_mod_cast (by omega : rs.length - 1 < rs.length)

theorem degree_list_sum_lt (D : ℕ) :
    ∀ L : List (Polynomial F), (∀ p ∈ L, p.degree < ((D : ℕ) : WithBot ℕ)) →
      L.sum.degree < ((D : ℕ) : WithBot ℕ) := by
  intro L
  induction L with
  | nil =>
    intro _
    rw [List.sum_nil, degree_zero]
    exact WithBot.bot_lt_coe D
  | cons p L ih =>
    intro h
    rw [List.sum_cons]
    refine lt_of_le_of_lt (degree_add_le _ _) ?_
    exact max_lt (h p (by simp)) (ih fun q hq => h q (by simp [hq]))

theorem combSum_degree_lt (block w : List F) :
    (combSum block w).degree < ((block.length : ℕ) : WithBot ℕ) := by
  rw [combSum]
  apply degree_list_sum_lt
  intro p hp
  rw [List.mem_map] at hp
  obtain ⟨i, hi, rfl⟩ := hp
  rw [List.mem_range] at hi
  refine lt_of_le_of_lt ?_ (prodExcept_degree_lt hi)
  refine le_trans (degree_mul_le _ _) ?_
  simpa using add_le_add_right (degree_C_le) (prodExcept block i).degree

theorem prodExcept_append_left {B₁ : List F} (B₂ : List F) {i : ℕ} (h : i < B₁.length) :
    prodExcept (B₁ ++ B₂) i = prodExcept B₁ i * (B₂.map (fun r => X - C r)).prod := by
  rw [prodExcept, List.eraseIdx_append_of_lt_length h, List.map_append, List.prod_append,
    prodExcept]

theorem prodExcept_append_right (B₁ B₂ : List F) (i : ℕ) :
    prodExcept (B₁ ++ B₂) (B₁.length + i) =
      (B₁.map (fun r => X - C r)).prod * prodExcept B₂ i := by
  rw [prodExcept, List.eraseIdx_append_of_length_le (by omega)]
  have he : B₁.length + i - B₁.length = i := by omega
  rw [he, List.map_append, List.prod_append, prodExcept]

theorem combSum_append (B₁ B₂ w : List F) :
    combSum (B₁ ++ B₂) w =
      combSum B₁ (w.take B₁.length) * (B₂.map (fun r => X - C r)).prod +
      combSum B₂ (w.drop B₁.length) * (B₁.map (fun r => X - C r)).prod := by
  rw [combSum, List.length_append, List.range_add, List.map_append, List.sum_append]
  congr 1
  · rw [combSum, ← List.sum_map_mul_right]
    apply congrArg List.sum
    apply List.map_congr_left
    intro i hi
    rw [List.mem_range] at hi
    rw [prodExcept_append_left B₂ hi, getD_take hi]
    ring
  · rw [combSum, ← List.sum_map_mul_right, List.map_map]
    apply congrArg List.sum
    apply List.map_congr_left
    intro i hi
    rw [List.mem_range] at hi
    show C (w.getD (B₁.length + i) 0) * prodExcept (B₁ ++ B₂) (B₁.length + i) = _
    rw [prodExcept_append_right, getD_drop]
    ring

/-- The up-the-tree pass computes, over each block, the linear combination
`Σ_i C v_i · ∏_{t ≠ i} (X - C root_t)` of the block's seeds. -/
theorem multiply_up_spec {roots : List F} {k : ℕ} (hn : roots.length = 2 ^ k) (v : List F) :
    ∀ l j, l ≤ k → j < 2 ^ (k - l) →
      Trimmed (multiply_up_the_tree (trueLayers roots k) v l j) ∧
      toPoly (multiply_up_the_tree (trueLayers roots k) v l j) =
        combSum (blockRoots roots l j) ((v.drop (j * 2 ^ l)).take (2 ^ l)) := by
  intro l
  induction l with
  | zero =>
    intro j hl hj
    have hjn : j < roots.length := by
      rw [hn]
      calc j < 2 ^ (k - 0) := hj
      _ = 2 ^ k := by rw [Nat.sub_zero]
    constructor
    · exact trim_trimmed _
    · show toPoly (trim [v.getD j 0]) = _
      rw [toPoly_trim, blockRoots_zero hjn, combSum]
      have h1 : List.range ([roots.getD j 0] : List F).length = [0] := rfl
      rw [h1, List.map_singleton]
      have h2 : prodExcept [roots.getD j 0] 0 = 1 := by
        rw [prodExcept]
        rfl
      rw [h2, mul_one]
      have h3 : (((v.drop (j * 2 ^ 0)).take (2 ^ 0)).getD 0 0) = v.getD j 0 := by
        rw [getD_take (by rw [pow_zero]; omega), getD_drop, pow_zero, Nat.mul_one,
          Nat.add_zero]
      rw [List.sum_cons, List.sum_nil, add_zero, h3, toPoly_cons, toPoly_nil, mul_zero,
        add_zero]
  | succ l ih =>
    intro j hl hj
    have hlk : l ≤ k := by omega
    have hj2 : 2 * j < 2 ^ (k - l) := by
      have : k - l = (k - (l + 1)) + 1 := by omega
      rw [this, pow_succ]; omega
    have hj21 : 2 * j + 1 < 2 ^ (k - l) := by
      have : k - l = (k - (l + 1)) + 1 := by omega
      rw [this, pow_succ]; omega
    have hL := ih (2 * j) hlk hj2
    have hR := ih (2 * j + 1) hlk hj21
    constructor
    · exact trim_trimmed _
    · show toPoly (polyAdd
        (polyMul (multiply_up_the_tree (trueLayers roots k) v l (2 * j))
          (getNode (trueLayers roots k) l (2 * j + 1)))
        (polyMul (multiply_up_the_tree (trueLayers roots k) v l (2 * j + 1))
          (getNode (trueLayers roots k) l (2 * j)))) = _
      rw [toPoly_polyAdd, toPoly_polyMul, toPoly_polyMul, hL.2, hR.2,
        getNode_trueLayers hn hlk hj2, getNode_trueLayers hn hlk hj21,
        blockProd, blockProd, toPoly_linearProduct, toPoly_linearProduct,
        blockRoots_split, combSum_append, blockRoots_length hn hlk hj2]
      have hw1 : ((v.drop (j * 2 ^ (l + 1))).take (2 ^ (l + 1))).take (2 ^ l) =
          (v.drop (2 * j * 2 ^ l)).take (2 ^ l) := by
        rw [List.take_take, min_eq_left (by rw [pow_succ]; omega)]
        congr 2
        rw [pow_succ]
        ring
      have hw2 : ((v.drop (j * 2 ^ (l + 1))).take (2 ^ (l + 1))).drop (2 ^ l) =
          (v.drop ((2 * j + 1) * 2 ^ l)).take (2 ^ l) := by
        rw [List.drop_take, List.drop_drop]
        have he1 : 2 ^ (l + 1) - 2 ^ l = 2 ^ l := by rw [pow_succ]; omega
        have he2 : j * 2 ^ (l + 1) + 2 ^ l = (2 * j + 1) * 2 ^ l := by
          rw [pow_succ]
          ring
        rw [he1, he2]
      rw [hw1, hw2]

/-! ### Evaluating the recombination sum -/

theorem blockRoots_top {roots : List F} {k : ℕ} (hn : roots.length = 2 ^ k) :
    blockRoots roots k 0 = roots := by
  rw [blockRoots, Nat.zero_mul, List.drop_zero, ← hn, List.take_length]

/-- Top-of-tree specialization of `multiply_up_spec`. -/
theorem multiply_up_top {roots : List F} {k : ℕ} (hn : roots.length = 2 ^ k)
    {v : List F} (hv : v.length = roots.length) :
    Trimmed (multiply_up_the_tree (trueLayers roots k) v k 0) ∧
    toPoly (multiply_up_the_tree (trueLayers roots k) v k 0) = combSum roots v := by
  have h := multiply_up_spec hn v k 0 le_rfl
    (by rw [Nat.sub_self, pow_zero]; omega)
  rw [blockRoots_top hn, Nat.zero_mul, List.drop_zero,
    List.take_of_length_le (by rw [hv, hn])] at h
  exact h

theorem eval_prodExcept_self {rs : List F} (m : ℕ) :
    (prodExcept rs m).eval (rs.getD m 0) = weightDen rs m := by
  rw [prodExcept, eval_list_prod, List.map_map, weightDen]
  apply congrArg List.prod
  apply List.map_congr_left
  intro s _
  show (X - C s).eval (rs.getD m 0) = rs.getD m 0 - s
  simp

theorem not_mem_eraseIdx_of_nodup {l : List F} {m : ℕ} (hm : m < l.length)
    (hnd : l.Nodup) : l.getD m 0 ∉ l.eraseIdx m := by
  intro hmem
  rw [List.eraseIdx_eq_take_drop_succ, List.getD_eq_getElem _ _ hm] at hmem
  rcases List.mem_append.mp hmem with h1 | h2
  · obtain ⟨p, hp, hpe⟩ := List.mem_iff_getElem.mp h1
    have hpm : p < m := by
      rw [List.length_take] at hp
      omega
    have hpl : p < l.length := by omega
    have : l[p] = l[m] := by
      rw [← hpe, List.getElem_take l]
    have := (List.Nodup.getElem_inj_iff hnd).mp this
    omega
  · obtain ⟨q, hq, hqe⟩ := List.mem_iff_getElem.mp h2
    have hql : m + 1 + q < l.length := by
      rw [List.length_drop] at hq
      omega
    have : l[m + 1 + q] = l[m] := by
      rw [← hqe, List.getElem_drop l]
    have := (List.Nodup.getElem_inj_iff hnd).mp this
    omega

theorem getD_mem_eraseIdx {rs : List F} {i m : ℕ} (hm : m < rs.length) (hne : m ≠ i) :
    rs.getD m 0 ∈ rs.eraseIdx i := by
  rw [List.eraseIdx_eq_take_drop_succ, List.mem_append]
  rcases Nat.lt_or_ge m i with hlt | hge
  · left
    rw [List.getD_eq_getElem _ _ hm]
    apply List.mem_iff_getElem.mpr
    refine ⟨m, by rw [List.length_take]; omega, ?_⟩
    exact List.getElem_take rs
  · right
    rw [List.getD_eq_getElem _ _ hm]
    apply List.mem_iff_getElem.mpr
    refine ⟨m - (i + 1), by rw [List.length_drop]; omega, ?_⟩
    rw [List.getElem_drop rs]
    congr 1
    omega

theorem eval_prodExcept_ne {rs : List F} {i m : ℕ} (hm : m < rs.length) (hne : m ≠ i) :
    (prodExcept rs i).eval (rs.getD m 0) = 0 := by
  rw [prodExcept, eval_list_prod, List.map_map]
  apply List.prod_eq_zero
  have hmem := getD_mem_eraseIdx (i := i) hm hne
  have himg := List.mem_map_of_mem (eval (rs.getD m 0) ∘ fun r => X - C r) hmem
  have hval : (eval (rs.getD m 0) ∘ fun r => X - C r) (rs.getD m 0) = 0 := by simp
  rwa [hval] at himg

theorem eval_combSum (rs w : List F) {m : ℕ} (hm : m < rs.length) :
    (combSum rs w).eval (rs.getD m 0) = w.getD m 0 * weightDen rs m := by
  have happ : ∀ p : Polynomial F, evalRingHom (rs.getD m 0) p = p.eval (rs.getD m 0) :=
    fun p => rfl
  rw [combSum, ← happ, map_list_sum (evalRingHom (rs.getD m 0)), List.map_map]
  have hbridge : ((List.range rs.length).map
      (evalRingHom (rs.getD m 0) ∘ fun i => C (w.getD i 0) * prodExcept rs i)).sum =
      ∑ i in Finset.range rs.length,
        (evalRingHom (rs.getD m 0) ∘ fun i => C (w.getD i 0) * prodExcept rs i) i := rfl
  rw [hbridge, Finset.sum_eq_single_of_mem m (Finset.mem_range.mpr hm)]
  · show evalRingHom (rs.getD m 0) (C (w.getD m 0) * prodExcept rs m) = _
    rw [happ, eval_mul, eval_C, eval_prodExcept_self]
  · intro i _ hne
    show evalRingHom (rs.getD m 0) (C (w.getD i 0) * prodExcept rs i) = 0
    rw [happ, eval_mul, eval_prodExcept_ne hm (fun he => hne he.symm), mul_zero]

theorem derivative_prodLinear :
    ∀ rs : List F, derivative ((rs.map (fun r => X - C r)).prod) =
      ((List.range rs.length).map (fun i => prodExcept rs i)).sum := by
  intro rs
  induction rs with
  | nil => simp
  | cons r rs ih =>
    rw [List.map_cons, List.prod_cons, derivative_mul, ih]
    have hd : derivative (X - C r) = 1 := by simp
    rw [hd, one_mul]
    rw [List.length_cons, List.range_succ_eq_map, List.map_cons, List.map_map, List.sum_cons]
    have h0 : prodExcept (r :: rs) 0 = (rs.map (fun s => X - C s)).prod := by
      rw [prodExcept]
      rfl
    rw [h0]
    congr 1
    rw [← List.sum_map_mul_left]
    apply congrArg List.sum
    apply List.map_congr_left
    intro i _
    show (X - C r) * prodExcept rs i = prodExcept (r :: rs) (i + 1)
    rw [prodExcept, prodExcept, List.eraseIdx_cons_succ, List.map_cons, List.prod_cons]

/-- The seed vector of all ones yields the formal derivative of the
vanishing polynomial. -/
theorem toPoly_vanishing_derivative {roots : List F} {k : ℕ} (hn : roots.length = 2 ^ k) :
    toPoly (multiply_up_the_tree (trueLayers roots k)
        (List.replicate roots.length 1) k 0) =
      derivative (toPoly (linearProduct roots)) := by
  rw [(multiply_up_top hn (by rw [List.length_replicate])).2,
    toPoly_linearProduct, derivative_prodLinear, combSum]
  apply congrArg List.sum
  apply List.map_congr_left
  intro i hi
  rw [List.mem_range] at hi
  have h1 : (List.replicate roots.length (1 : F)).getD i 0 = 1 := by
    rw [List.getD_eq_getElem _ _ (by rw [List.length_replicate]; exact hi),
      List.getElem_replicate]
  rw [h1, map_one, one_mul]

theorem weightDen_ne_zero {rs : List F} (hnd : rs.Nodup) {m : ℕ} (hm : m < rs.length) :
    weightDen rs m ≠ 0 := by
  rw [weightDen]
  intro h0
  have hmem := List.prod_eq_zero_iff.mp h0
  rw [List.mem_map] at hmem
  obtain ⟨x, hx, hxe⟩ := hmem
  exact not_mem_eraseIdx_of_nodup hm hnd ((sub_eq_zero.mp hxe) ▸ hx)

/-- Lagrange uniqueness: a degree `< n` polynomial agreeing with the
barycentric combination at all `n` distinct roots equals it. -/
theorem combSum_eq_of_seeds {roots : List F} (hnd : roots.Nodup)
    (hlen : 0 < roots.length) (f : Polynomial F)
    (hdeg : f.degree < ((roots.length : ℕ) : WithBot ℕ)) (w : List F)
    (hw : ∀ m, m < roots.length →
      w.getD m 0 = f.eval (roots.getD m 0) * (weightDen roots m)⁻¹) :
    combSum roots w = f := by
  have hz : combSum roots w - f = 0 := by
    apply eq_zero_of_natDegree_lt_card_of_eval_eq_zero' (combSum roots w - f) roots.toFinset
    · intro x hx
      rw [List.mem_toFinset] at hx
      obtain ⟨m, hm, rfl⟩ := List.mem_iff_getElem.mp hx
      rw [← List.getD_eq_getElem _ _ hm, eval_sub, eval_combSum roots w hm, hw m hm,
        mul_assoc, inv_mul_cancel₀ (weightDen_ne_zero hnd hm), mul_one, sub_self]
    · rw [List.toFinset_card_of_nodup hnd]
      have hd : (combSum roots w - f).degree < ((roots.length : ℕ) : WithBot ℕ) :=
        lt_of_le_of_lt (degree_sub_le _ _) (max_lt (combSum_degree_lt roots w) hdeg)
      by_cases h0 : combSum roots w - f = 0
      · rw [h0, natDegree_zero]
        exact hlen
      · exact natDegree_lt_iff_degree_lt h0 |>.mpr hd
  have := sub_eq_zero.mp hz
  exact this

/-! ### The barycentric weights of a successful construction -/

theorem getD_replicate_one {n i : ℕ} (hi : i < n) :
    (List.replicate n (1 : F)).getD i 0 = 1 := by
  rw [List.getD_eq_getElem _ _ (by rw [List.length_replicate]; exact hi),
    List.getElem_replicate]

theorem construct_ri_eq {roots : List F} {k : ℕ} (hn : roots.length = 2 ^ k) :
    (divide_down_the_tree (trueLayers roots k) k 0
      (multiply_up_the_tree (trueLayers roots k)
        (List.replicate roots.length 1) k 0)).map (·⁻¹) =
    (List.range roots.length).map (fun m => (weightDen roots m)⁻¹) := by
  have htop := multiply_up_top hn
    (v := List.replicate roots.length (1 : F)) (by rw [List.length_replicate])
  have hdeg : (toPoly (multiply_up_the_tree (trueLayers roots k)
      (List.replicate roots.length 1) k 0)).degree < ((2 ^ k : ℕ) : WithBot ℕ) := by
    rw [htop.2]
    calc (combSum roots (List.replicate roots.length 1)).degree
        < ((roots.length : ℕ) : WithBot ℕ) := combSum_degree_lt _ _
    _ = ((2 ^ k : ℕ) : WithBot ℕ) := by rw [hn]
  have hdd := divide_down_spec hn k 0 _ le_rfl
    (by rw [Nat.sub_self, pow_zero]; omega) hdeg
  rw [blockRoots_top hn] at hdd
  rw [hdd, List.map_map]
  apply List.ext_getElem (by simp)
  intro i h1 h2
  simp only [List.getElem_map, List.getElem_range, Function.comp_apply]
  congr 1
  have hi : i < roots.length := by simpa using h1
  rw [← List.getD_eq_getElem _ _ hi, htop.2, eval_combSum roots _ hi,
    getD_replicate_one hi, one_mul]

theorem toPoly_derivList (l : List F) : toPoly (derivList l) = derivative (toPoly l) := by
  apply Polynomial.ext
  intro n
  rw [coeff_toPoly, coeff_derivative, coeff_toPoly, derivList, getD_map_range]
  rcases Nat.lt_or_ge n (l.length - 1) with hlt | hge
  · rw [if_pos hlt]
    push_cast
    ring
  · rw [if_neg (by omega), getD_eq_zero_of_length_le (by omega), zero_mul]

theorem weightDen_eq_deriv {roots : List F} {m : ℕ} (hm : m < roots.length) :
    weightDen roots m = evalList (derivList (linearProduct roots)) (roots.getD m 0) := by
  rw [evalList_toPoly, toPoly_derivList, toPoly_linearProduct, derivative_prodLinear]
  have hones : ((List.range roots.length).map (fun i => prodExcept roots i)).sum =
      combSum roots (List.replicate roots.length 1) := by
    rw [combSum]
    apply congrArg List.sum
    apply List.map_congr_left
    intro i hi
    rw [List.mem_range] at hi
    rw [getD_replicate_one hi, map_one, one_mul]
  rw [hones, eval_combSum roots _ hm, getD_replicate_one hm, one_mul]

theorem trimmed_length_le_of_degree_lt {P : List F} (htr : Trimmed P) {n : ℕ}
    (hdeg : (toPoly P).degree < ((n : ℕ) : WithBot ℕ)) : P.length ≤ n := by
  rcases hP : P with _ | ⟨a, as⟩
  · simp
  · rw [← hP]
    have hne : P ≠ [] := by rw [hP]; exact List.cons_ne_nil _ _
    have hnd := natDegree_toPoly_trimmed htr hne
    have hdd : (toPoly P).degree = (((P.length - 1 : ℕ)) : WithBot ℕ) := by
      rw [degree_eq_natDegree (toPoly_ne_zero htr hne), hnd]
    rw [hdd] at hdeg
    have : P.length - 1 < n := by exact_mod_cast hdeg
    have hpos : 0 < P.length := by rw [hP]; simp
    omega

theorem getD_zipWith_mul (a b : List F) {m : ℕ} (hm : m < a.length) (hm2 : m < b.length) :
    (List.zipWith (· * ·) a b).getD m 0 = a.getD m 0 * b.getD m 0 := by
  rw [List.getD_eq_getElem _ _ (by rw [List.length_zipWith]; omega),
    List.getElem_zipWith, List.getD_eq_getElem _ _ hm, List.getD_eq_getElem _ _ hm2]

theorem prod_map_eraseIdx (f : F → F) {rs : List F} {i : ℕ} (hi : i < rs.length) :
    (rs.map f).prod = f (rs.getD i 0) * ((rs.eraseIdx i).map f).prod := by
  conv_lhs => rw [← List.take_append_drop i rs, List.drop_eq_getElem_cons hi]
  rw [List.map_append, List.prod_append, List.map_cons, List.prod_cons,
    List.eraseIdx_eq_take_drop_succ, List.map_append, List.prod_append,
    List.getD_eq_getElem _ _ hi]
  ring

theorem prod_map_inv (l : List F) : (l.map (·⁻¹)).prod = l.prod⁻¹ := by
  induction l with
  | nil => simp
  | cons x xs ih => rw [List.map_cons, List.prod_cons, List.prod_cons, mul_inv, ih]

/-- Bundled outcome of a non-degenerate power-of-two construction: the true
layers together with the barycentric weights `(∏_{j≠m}(r_m - r_j))⁻¹`. -/
theorem construct_success_spec {roots : List F} {k : ℕ} (hn : roots.length = 2 ^ k)
    (hnd : nonDegenerate roots k = true) :
    construct roots = .success ⟨trueLayers roots k,
      (List.range roots.length).map (fun m => (weightDen roots m)⁻¹)⟩ := by
  rw [construct_eq hn hnd, construct_ri_eq hn]

theorem get_vanishing_trueLayers {roots : List F} {k : ℕ} (hn : roots.length = 2 ^ k)
    (R : List F) :
    get_vanishing ⟨trueLayers roots k, R⟩ = linearProduct roots := by
  show getNode (trueLayers roots k) ((trueLayers roots k).length - 1) 0 = _
  rw [trueLayers_length, Nat.add_sub_cancel,
    getNode_trueLayers hn le_rfl (by rw [Nat.sub_self, pow_zero]; omega),
    blockProd, blockRoots_top hn]

/-! ### Round-trip and basis-evaluation helpers -/

theorem length_le_of_arkDegree_lt {f : List F} {n : ℕ} (h : arkDegree f < n) :
    f.length ≤ n := by
  rcases f with _ | ⟨a, as⟩
  · exact Nat.zero_le n
  · rw [arkDegree] at h
    simp only [List.length_cons] at h ⊢
    omega

theorem degree_toPoly_lt_of_arkDegree_lt {f : List F} {n : ℕ} (h : arkDegree f < n) :
    (toPoly f).degree < ((n : ℕ) : WithBot ℕ) :=
  lt_of_lt_of_le (degree_toPoly_lt f) (by exact_mod_cast length_le_of_arkDegree_lt h)

/-- Evaluation over the domain on a tree holding the true layers: the
degree guard passes and the result is the vector of evaluations at the
roots, in input order. -/
theorem evaluate_trueTree {roots : List F} {k : ℕ} (hn : roots.length = 2 ^ k)
    (R : List F) {f : List F} (hdeg : arkDegree f < roots.length) :
    evaluate_over_domain ⟨trueLayers roots k, R⟩ f =
      some (roots.map (fun r => (toPoly f).eval r)) := by
  show (if arkDegree f < ((trueLayers roots k).getD 0 []).length then
      some (divide_down_the_tree (trueLayers roots k)
        ((trueLayers roots k).length - 1) 0 f)
    else none) = _
  rw [trueLayers_layer0_length hn, if_pos hdeg, trueLayers_length, Nat.add_sub_cancel]
  have hdegf : (toPoly f).degree < ((2 ^ k : ℕ) : WithBot ℕ) := by
    rw [← hn]
    exact degree_toPoly_lt_of_arkDegree_lt hdeg
  rw [divide_down_spec hn k 0 f le_rfl (by rw [Nat.sub_self, pow_zero]; omega) hdegf,
    blockRoots_top hn]

theorem trueLayers_getD_zero (roots : List F) (k : ℕ) :
    (trueLayers roots k).getD 0 [] = roots.map mkLeaf := by
  rw [trueLayers, getD_map_range]
  rw [if_pos (by omega)]
  exact (map_mkLeaf_eq_trueLayer0 roots).symm

theorem evalList_mkLeaf (r x : F) : evalList (mkLeaf r) x = x - r := by
  show -r + x * (1 + x * 0) = x - r
  ring

theorem evalList_linearProduct (rs : List F) (x : F) :
    evalList (linearProduct rs) x = (rs.map (fun r => x - r)).prod := by
  rw [evalList_toPoly, toPoly_linearProduct, eval_list_prod, List.map_map]
  apply congrArg List.prod
  apply List.map_congr_left
  intro r _
  show (X - C r).eval x = x - r
  simp

theorem prod_map_mul_fun (f g : F → F) (l : List F) :
    (l.map (fun x => f x * g x)).prod = (l.map f).prod * (l.map g).prod := by
  induction l with
  | nil => simp
  | cons x xs ih =>
    rw [List.map_cons, List.prod_cons, List.map_cons, List.prod_cons, List.map_cons,
      List.prod_cons, ih]
    ring

theorem prod_map_inv_comp (g : F → F) (l : List F) :
    (l.map (fun x => (g x)⁻¹)).prod = ((l.map g).prod)⁻¹ := by
  induction l with
  | nil => simp
  | cons x xs ih =>
    rw [List.map_cons, List.prod_cons, List.map_cons, List.prod_cons, mul_inv, ih]

/-! ### Claims -/

/-- C1 (amended): for every `n = 2^k` and every pairwise-distinct root
set on which construction is non-degenerate (each internal pair product
keeps a nonzero second-highest coefficient — exactly the inputs on which
the width-halved transform loses nothing), `construct` succeeds and
`get_vanishing()` returns the explicit product `∏ (x - root_i)` computed
by repeated multiplication of the linear factors. -/
theorem c1_vanishing_amended {F : Type} [Field F] [DecidableEq F]
    (roots : List F) (k : ℕ) (hn : roots.length = 2 ^ k)
    (hdistinct : roots.Nodup) (hnd : nonDegenerate roots k = true) :
    ∃ t : Pow2ProductSubtree F, construct roots = .success t ∧
      get_vanishing t = linearProduct roots :=
  ⟨_, construct_success_spec hn hnd, get_vanishing_trueLayers hn _⟩

/-- C1 counterexample: over `ZMod 101` the distinct power-of-two root set
`{2, -2}` constructs successfully, but the stored vanishing polynomial is
`x - 4` instead of `(x - 2)(x + 2) = x² - 4`: the pair product has zero
subleading coefficient, so the aliased transform output is trimmed and the
final coefficient surgery corrupts the result. -/
theorem c1_vanishing_counterexample :
    ([2, 99] : List K).Nodup ∧ ([2, 99] : List K).length = 2 ^ 1 ∧
    construct ([2, 99] : List K) = .success (getTree [2, 99]) ∧
    get_vanishing (getTree ([2, 99] : List K)) ≠ linearProduct [2, 99] := by
  decide

/-- C1 witness: the amended theorem applied to the concrete non-degenerate
root set `{1, 2, 3, 4}` over `ZMod 101`. -/
theorem c1_vanishing_witness :
    (([1, 2, 3, 4] : List K).length = 2 ^ 2 ∧ ([1, 2, 3, 4] : List K).Nodup ∧
      nonDegenerate ([1, 2, 3, 4] : List K) 2 = true) ∧
    ∃ t : Pow2ProductSubtree K, construct [1, 2, 3, 4] = .success t ∧
      get_vanishing t = linearProduct [1, 2, 3, 4] :=
  ⟨⟨by decide, by decide, by decide⟩,
    c1_vanishing_amended [1, 2, 3, 4] 2 (by decide) (by decide) (by decide)⟩

/-- C2 (amended): `multiply_pow2_monic_polys` on monic operands of equal
power-of-two degree `d ≥ 1` returns exactly the schoolbook product — a
monic polynomial of degree `2d` — provided the product's coefficient at
`x^(2d-1)` is nonzero (otherwise the width-`2d` inverse transform is
trimmed and the result is corrupted). -/
theorem c2_multiply_amended {F : Type} [Field F] [DecidableEq F]
    (a b : List F) (d : ℕ) (hpow : ∃ i, d = 2 ^ i) (hd : 1 ≤ d)
    (hla : a.length = d + 1) (hlb : b.length = d + 1)
    (hma : a.getLast? = some 1) (hmb : b.getLast? = some 1)
    (hkey : (rawConv a b).getD (2 * d - 1) 0 ≠ 0) :
    multiply_pow2_monic_polys a b = some (polyMul a b) ∧
      (polyMul a b).length = 2 * d + 1 ∧ (polyMul a b).getLast? = some 1 := by
  have hmm := polyMul_monic hma hmb
  refine ⟨?_, ?_, hmm.2.2⟩
  · rw [hmm.1]
    exact multiply_pow2_monic_polys_exact hpow hd hla hlb hma hmb hkey
  · rw [hmm.2.1, hla, hlb]
    omega

/-- C2 counterexample: `a = b = x²` are monic of power-of-two degree 2,
yet over `ZMod 101` the function returns `x` instead of the schoolbook
product `x⁴` — the size-4 inverse transform of `x⁴ mod (x⁴ - 1) = 1` is
trimmed to a single coefficient before the final surgery. -/
theorem c2_multiply_counterexample :
    ([0, 0, 1] : List K).length = 2 + 1 ∧ ([0, 0, 1] : List K).getLast? = some 1 ∧
    multiply_pow2_monic_polys ([0, 0, 1] : List K) [0, 0, 1] ≠
      some (polyMul [0, 0, 1] [0, 0, 1]) := by
  decide

/-- C2 witness: the amended theorem applied to `a = b = x + 1` over
`ZMod 101`, whose product `x² + 2x + 1` has nonzero subleading
coefficient. -/
theorem c2_multiply_witness :
    (([1, 1] : List K).length = 1 + 1 ∧ ([1, 1] : List K).getLast? = some 1 ∧
      (rawConv ([1, 1] : List K) [1, 1]).getD (2 * 1 - 1) 0 ≠ 0) ∧
    (multiply_pow2_monic_polys ([1, 1] : List K) [1, 1] = some (polyMul [1, 1] [1, 1]) ∧
      (polyMul ([1, 1] : List K) [1, 1]).length = 2 * 1 + 1 ∧
      (polyMul ([1, 1] : List K) [1, 1]).getLast? = some 1) :=
  ⟨⟨by decide, by decide, by decide⟩,
    c2_multiply_amended [1, 1] [1, 1] 1 ⟨0, rfl⟩ (by decide) (by decide) (by decide)
      (by decide) (by decide) (by decide)⟩

/-- C9: there exist valid inputs — monic polynomials of equal power-of-two
degree whose true product is `x^(2d) - 1`, such as `a = x - 1`, `b = x + 1`
— on which `multiply_pow2_monic_polys` panics (out-of-bounds index on the
empty trimmed coefficient vector) instead of returning a result. -/
theorem c9_multiply_panics :
    ∃ a b : List K, a.length = 1 + 1 ∧ b.length = 1 + 1 ∧
      a.getLast? = some 1 ∧ b.getLast? = some 1 ∧
      polyMul a b = [100, 0, 1] ∧
      multiply_pow2_monic_polys a b = none :=
  ⟨[100, 1], [1, 1], by decide, by decide, by decide, by decide, by decide, by decide⟩

/-- C10: none of the five public trait calls mutates the tree — the
state-passing semantics returns the receiver unchanged for every
constructed tree and every argument, since no method body writes a
receiver field. -/
theorem c10_no_mutation {F : Type} [Field F] [DecidableEq F]
    (t : Pow2ProductSubtree F) (c : ProcessorCall F) :
    (runCall t c).2 = t := by
  cases c <;> rfl

/-- C8 (amended): `construct` returns `EmptyRoots` exactly on the empty
input and `NotPow2` exactly on non-empty inputs of non-power-of-two
length; on power-of-two length it succeeds whenever the construction is
non-degenerate (in particular always for length 1, where no pair product
is formed) — but an internal pair product equal to `x^(2d) - 1` panics
instead of succeeding. -/
theorem c8_construct_amended {F : Type} [Field F] [DecidableEq F] (roots : List F) :
    (construct roots = .failure .EmptyRoots ↔ roots = []) ∧
    (construct roots = .failure .NotPow2 ↔
      (roots ≠ [] ∧ ∀ k, roots.length ≠ 2 ^ k)) ∧
    (∀ k, roots.length = 2 ^ k → nonDegenerate roots k = true →
      ∃ t, construct roots = .success t) := by
  refine ⟨⟨?_, ?_⟩, ⟨?_, ?_⟩, ?_⟩
  · intro h
    by_cases h0 : roots.length = 0
    · exact List.length_eq_zero.mp h0
    · exfalso
      rw [construct, if_neg h0] at h
      by_cases h1 : roots.length &&& (roots.length - 1) ≠ 0
      · rw [if_pos h1] at h
        injection h with h2
        exact Error.noConfusion h2
      · rw [if_neg h1] at h
        rcases hb : buildLayers (roots.map mkLeaf) (log2fuel roots.length roots.length)
          with _ | L
        · rw [hb] at h
          exact ConstructResult.noConfusion h
        · rw [hb] at h
          exact ConstructResult.noConfusion h
  · intro h
    rw [h, construct, if_pos (by rw [List.length_nil])]
  · intro h
    constructor
    · intro h0
      rw [h0, construct, if_pos (by rw [List.length_nil])] at h
      injection h with h2
      exact Error.noConfusion h2
    · intro m hm
      by_cases h0 : roots.length = 0
      · rw [construct, if_pos h0] at h
        injection h with h2
        exact Error.noConfusion h2
      · rw [construct, if_neg h0] at h
        have hb : roots.length &&& (roots.length - 1) = 0 := by
          rw [hm, two_pow_and_pred]
        rw [if_neg (by rw [hb]; exact fun hc => hc rfl)] at h
        rcases hbl : buildLayers (roots.map mkLeaf) (log2fuel roots.length roots.length)
          with _ | L
        · rw [hbl] at h
          exact ConstructResult.noConfusion h
        · rw [hbl] at h
          exact ConstructResult.noConfusion h
  · rintro ⟨hne, hnp⟩
    have h0 : roots.length ≠ 0 := fun hc => hne (List.length_eq_zero.mp hc)
    have h1 : roots.length &&& (roots.length - 1) ≠ 0 := by
      intro hc
      rcases pow2_of_and_pred h0 hc with ⟨m, hm⟩
      exact hnp m hm
    rw [construct, if_neg h0, if_pos h1]
  · intro m hm hnd
    exact ⟨_, construct_success_spec hm hnd⟩

/-- C8 counterexample: the power-of-two input `{1, -1}` over `ZMod 101`
does not succeed — it panics, because the pair product `x² - 1` hits the
fatal trimmed-to-empty case of the monic multiplier. -/
theorem c8_construct_counterexample :
    ([1, 100] : List K).length = 2 ^ 1 ∧ construct ([1, 100] : List K) = .panicked := by
  decide

/-- C8 witness: the amended theorem applied concretely — `EmptyRoots` on
`[]`, `NotPow2` on a length-3 input, success on a non-degenerate length-4
input. -/
theorem c8_construct_witness :
    construct ([] : List K) = .failure .EmptyRoots ∧
    construct ([5, 6, 7] : List K) = .failure .NotPow2 ∧
    ∃ t, construct ([1, 2, 3, 4] : List K) = .success t := by
  refine ⟨(c8_construct_amended ([] : List K)).1.mpr rfl,
    (c8_construct_amended ([5, 6, 7] : List K)).2.1.mpr ⟨by decide, ?_⟩,
    (c8_construct_amended ([1, 2, 3, 4] : List K)).2.2 2 (by decide) (by decide)⟩
  intro m
  rcases m with _ | _ | m
  · decide
  · decide
  · show (3 : ℕ) ≠ 2 ^ (m + 2)
    have h4 : 4 ≤ 2 ^ (m + 2) := by
      have h1 : 0 < 2 ^ m := Nat.pos_pow_of_pos m (by omega)
      have h2 : 2 ^ (m + 2) = 4 * 2 ^ m := by rw [pow_add]; ring
      omega
    omega

/-- C6 (amended): `evaluate_over_domain` aborts exactly when
`degree(f) ≥ n`; when `degree(f) < n` it returns `[f(root_0), …,
f(root_(n-1))]` in input order, provided the tree was built
non-degenerately (a degenerate tree holds wrong products and reduces the
polynomial modulo wrong divisors). -/
theorem c6_evaluate_amended {F : Type} [Field F] [DecidableEq F]
    (roots : List F) (k : ℕ) (f : List F) (hn : roots.length = 2 ^ k)
    (hnd : nonDegenerate roots k = true) (htr : Trimmed f) :
    ∃ t : Pow2ProductSubtree F, construct roots = .success t ∧
      (arkDegree f < roots.length →
        evaluate_over_domain t f = some (roots.map (fun r => evalList f r))) ∧
      (roots.length ≤ arkDegree f → evaluate_over_domain t f = none) := by
  refine ⟨_, construct_success_spec hn hnd, ?_, ?_⟩
  · intro hdeg
    show (if arkDegree f < ((trueLayers roots k).getD 0 []).length then
        some (divide_down_the_tree (trueLayers roots k)
          ((trueLayers roots k).length - 1) 0 f)
      else none) = _
    rw [trueLayers_layer0_length hn, if_pos hdeg, trueLayers_length, Nat.add_sub_cancel]
    have hdegf : (toPoly f).degree < ((2 ^ k : ℕ) : WithBot ℕ) := by
      calc (toPoly f).degree < ((f.length : ℕ) : WithBot ℕ) := degree_toPoly_lt f
      _ ≤ ((2 ^ k : ℕ) : WithBot ℕ) := by
          have hle : f.length ≤ 2 ^ k := by
            rcases f with _ | ⟨a, as⟩
            · simp
            · rw [arkDegree, hn] at hdeg
              simp only [List.length_cons] at hdeg ⊢
              omega
          exact_mod_cast hle
    rw [divide_down_spec hn k 0 f le_rfl (by rw [Nat.sub_self, pow_zero]; omega) hdegf,
      blockRoots_top hn]
    congr 1
    apply List.map_congr_left
    intro r _
    rw [evalList_toPoly]
  · intro hdeg
    show (if arkDegree f < ((trueLayers roots k).getD 0 []).length then
        some (divide_down_the_tree (trueLayers roots k)
          ((trueLayers roots k).length - 1) 0 f)
      else none) = none
    rw [trueLayers_layer0_length hn, if_neg (by omega)]

/-- C6 counterexample: over `ZMod 101` the distinct roots
`{2, -2, 3, -3}` build a degenerate tree (still a successful
construction), and evaluating `f = x` — degree 1 < 4 — returns
`[4, 4, 9, 9]` instead of `[f(2), f(-2), f(3), f(-3)] = [2, 99, 3, 98]`. -/
theorem c6_evaluate_counterexample :
    ([2, 99, 3, 98] : List K).Nodup ∧ ([2, 99, 3, 98] : List K).length = 2 ^ 2 ∧
    construct ([2, 99, 3, 98] : List K) = .success (getTree [2, 99, 3, 98]) ∧
    Trimmed ([0, 1] : List K) ∧ arkDegree ([0, 1] : List K) < 4 ∧
    evaluate_over_domain (getTree ([2, 99, 3, 98] : List K)) [0, 1] ≠
      some (([2, 99, 3, 98] : List K).map (fun r => evalList [0, 1] r)) := by
  decide

/-- C6 witness: the amended theorem applied to the non-degenerate roots
`{1, 2, 3, 4}` over `ZMod 101` and `f = 5 + 7x`. -/
theorem c6_evaluate_witness :
    (([1, 2, 3, 4] : List K).length = 2 ^ 2 ∧
      nonDegenerate ([1, 2, 3, 4] : List K) 2 = true ∧ Trimmed ([5, 7] : List K)) ∧
    ∃ t : Pow2ProductSubtree K, construct [1, 2, 3, 4] = .success t ∧
      (arkDegree ([5, 7] : List K) < ([1, 2, 3, 4] : List K).length →
        evaluate_over_domain t [5, 7] =
          some (([1, 2, 3, 4] : List K).map (fun r => evalList [5, 7] r))) ∧
      (([1, 2, 3, 4] : List K).length ≤ arkDegree ([5, 7] : List K) →
        evaluate_over_domain t [5, 7] = none) :=
  ⟨⟨by decide, by decide, by decide⟩,
    c6_evaluate_amended [1, 2, 3, 4] 2 [5, 7] (by decide) (by decide) (by decide)⟩

/-- C7 (amended): after a non-degenerate construction on pairwise-distinct
roots, `get_ri()` returns one field element per root, in input order, the
`i`-th being `1 / Z'(root_i)` for the formal derivative `Z'` of the true
vanishing polynomial `∏ (x - root_i)`. -/
theorem c7_ri_amended {F : Type} [Field F] [DecidableEq F]
    (roots : List F) (k : ℕ) (hn : roots.length = 2 ^ k)
    (hdistinct : roots.Nodup) (hnd : nonDegenerate roots k = true) :
    ∃ t : Pow2ProductSubtree F, construct roots = .success t ∧
      get_ri t = (List.range roots.length).map
        (fun i => (evalList (derivList (linearProduct roots)) (roots.getD i 0))⁻¹) := by
  refine ⟨_, construct_success_spec hn hnd, ?_⟩
  show (List.range roots.length).map (fun m => (weightDen roots m)⁻¹) = _
  apply List.map_congr_left
  intro m hm
  rw [List.mem_range] at hm
  rw [weightDen_eq_deriv hm]

/-- C7 counterexample: on the degenerate (yet successfully constructed,
pairwise-distinct) roots `{2, -2, 3, -3}` over `ZMod 101`, the stored
weights differ from `1 / Z'(root_i)`: the down-the-tree pass reduces
through a wrong layer-1 node. -/
theorem c7_ri_counterexample :
    ([2, 99, 3, 98] : List K).Nodup ∧ ([2, 99, 3, 98] : List K).length = 2 ^ 2 ∧
    construct ([2, 99, 3, 98] : List K) = .success (getTree [2, 99, 3, 98]) ∧
    get_ri (getTree ([2, 99, 3, 98] : List K)) ≠
      (List.range 4).map (fun i =>
        (evalList (derivList (linearProduct ([2, 99, 3, 98] : List K)))
          (([2, 99, 3, 98] : List K).getD i 0))⁻¹) := by
  decide

/-- C7 witness: the amended theorem applied to the non-degenerate roots
`{1, 2, 3, 4}` over `ZMod 101`. -/
theorem c7_ri_witness :
    (([1, 2, 3, 4] : List K).length = 2 ^ 2 ∧ ([1, 2, 3, 4] : List K).Nodup ∧
      nonDegenerate ([1, 2, 3, 4] : List K) 2 = true) ∧
    ∃ t : Pow2ProductSubtree K, construct [1, 2, 3, 4] = .success t ∧
      get_ri t = (List.range ([1, 2, 3, 4] : List K).length).map
        (fun i => (evalList (derivList (linearProduct ([1, 2, 3, 4] : List K)))
          (([1, 2, 3, 4] : List K).getD i 0))⁻¹) :=
  ⟨⟨by decide, by decide, by decide⟩,
    c7_ri_amended [1, 2, 3, 4] 2 (by decide) (by decide) (by decide)⟩

/-- C3 (amended): on a non-degenerate power-of-two construction over
pairwise-distinct roots, evaluating any canonical polynomial of degree
`< n` over the domain and interpolating the resulting vector returns the
polynomial exactly. -/
theorem c3_roundtrip_amended {F : Type} [Field F] [DecidableEq F]
    (roots : List F) (k : ℕ) (f : List F) (hn : roots.length = 2 ^ k)
    (hnd : nonDegenerate roots k = true) (hdist : roots.Nodup)
    (htr : Trimmed f) (hdeg : arkDegree f < roots.length) :
    ∃ t : Pow2ProductSubtree F, construct roots = .success t ∧
      (evaluate_over_domain t f).bind (interpolate t) = some f := by
  refine ⟨⟨trueLayers roots k,
    (List.range roots.length).map (fun m => (weightDen roots m)⁻¹)⟩,
    construct_success_spec hn hnd, ?_⟩
  rw [evaluate_trueTree hn _ hdeg]
  show (if (roots.map (fun r => (toPoly f).eval r)).length =
      ((List.range roots.length).map (fun m => (weightDen roots m)⁻¹)).length then
      some (multiply_up_the_tree (trueLayers roots k)
        (List.zipWith (· * ·) (roots.map (fun r => (toPoly f).eval r))
          ((List.range roots.length).map (fun m => (weightDen roots m)⁻¹)))
        ((trueLayers roots k).length - 1) 0)
    else none) = some f
  rw [if_pos (by rw [List.length_map, List.length_map, List.length_range]),
    trueLayers_length, Nat.add_sub_cancel]
  congr 1
  have hwlen : (List.zipWith (· * ·) (roots.map (fun r => (toPoly f).eval r))
      ((List.range roots.length).map (fun m => (weightDen roots m)⁻¹))).length =
      roots.length := by
    rw [List.length_zipWith, List.length_map, List.length_map, List.length_range,
      min_self]
  have htop := multiply_up_top hn hwlen
  apply trimmed_ext htop.1 htr
  rw [htop.2]
  apply combSum_eq_of_seeds hdist (by rw [hn]; exact Nat.pos_pow_of_pos k (by omega))
    (toPoly f) (degree_toPoly_lt_of_arkDegree_lt hdeg)
  intro m hm
  rw [getD_zipWith_mul _ _ (by rw [List.length_map]; exact hm)
    (by rw [List.length_map, List.length_range]; exact hm)]
  have he : (roots.map (fun r => (toPoly f).eval r)).getD m 0 =
      (toPoly f).eval (roots.getD m 0) := by
    rw [List.getD_eq_getElem _ _ (by rw [List.length_map]; exact hm),
      List.getElem_map, List.getD_eq_getElem _ _ hm]
  have hri : ((List.range roots.length).map (fun j => (weightDen roots j)⁻¹)).getD m 0 =
      (weightDen roots m)⁻¹ := by
    rw [getD_map_range]
    rw [if_pos hm]
  rw [he, hri]

/-- C3 counterexample: the pairwise-distinct roots `{2, -2, 3, -3}` over
`ZMod 101` construct successfully but degenerately, and the round trip on
`f = 1 + x` (degree 1 < 4) does not return `f`. -/
theorem c3_roundtrip_counterexample :
    ([2, 99, 3, 98] : List K).Nodup ∧ Trimmed ([1, 1] : List K) ∧
    arkDegree ([1, 1] : List K) < ([2, 99, 3, 98] : List K).length ∧
    construct ([2, 99, 3, 98] : List K) = .success (getTree [2, 99, 3, 98]) ∧
    (evaluate_over_domain (getTree ([2, 99, 3, 98] : List K)) [1, 1]).bind
      (interpolate (getTree ([2, 99, 3, 98] : List K))) ≠ some [1, 1] := by
  decide

/-- C3 witness: the amended round trip on the non-degenerate roots
`{1, 2, 3, 4}` over `ZMod 101` and `f = 5 + 7x`. -/
theorem c3_roundtrip_witness :
    (([1, 2, 3, 4] : List K).length = 2 ^ 2 ∧
      nonDegenerate ([1, 2, 3, 4] : List K) 2 = true ∧
      ([1, 2, 3, 4] : List K).Nodup ∧ Trimmed ([5, 7] : List K) ∧
      arkDegree ([5, 7] : List K) < ([1, 2, 3, 4] : List K).length) ∧
    ∃ t : Pow2ProductSubtree K, construct [1, 2, 3, 4] = .success t ∧
      (evaluate_over_domain t [5, 7]).bind (interpolate t) = some [5, 7] :=
  ⟨⟨by decide, by decide, by decide, by decide, by decide⟩,
    c3_roundtrip_amended [1, 2, 3, 4] 2 [5, 7] (by decide) (by decide) (by decide)
      (by decide) (by decide)⟩

/-- C4 (amended): on a non-degenerate power-of-two construction over
pairwise-distinct roots, interpolating any evaluation vector of matching
length and evaluating the result over the domain returns the vector
exactly. -/
theorem c4_interp_amended {F : Type} [Field F] [DecidableEq F]
    (roots : List F) (k : ℕ) (v : List F) (hn : roots.length = 2 ^ k)
    (hnd : nonDegenerate roots k = true) (hdist : roots.Nodup)
    (hvlen : v.length = roots.length) :
    ∃ t : Pow2ProductSubtree F, construct roots = .success t ∧
      (interpolate t v).bind (evaluate_over_domain t) = some v := by
  refine ⟨⟨trueLayers roots k,
    (List.range roots.length).map (fun m => (weightDen roots m)⁻¹)⟩,
    construct_success_spec hn hnd, ?_⟩
  have hint : interpolate ⟨trueLayers roots k,
      (List.range roots.length).map (fun m => (weightDen roots m)⁻¹)⟩ v =
      some (multiply_up_the_tree (trueLayers roots k)
        (List.zipWith (· * ·) v
          ((List.range roots.length).map (fun m => (weightDen roots m)⁻¹)))
        k 0) := by
    show (if v.length =
        ((List.range roots.length).map (fun m => (weightDen roots m)⁻¹)).length then
        some (multiply_up_the_tree (trueLayers roots k)
          (List.zipWith (· * ·) v
            ((List.range roots.length).map (fun m => (weightDen roots m)⁻¹)))
          ((trueLayers roots k).length - 1) 0)
      else none) = _
    rw [if_pos (by rw [List.length_map, List.length_range, hvlen]), trueLayers_length,
      Nat.add_sub_cancel]
  rw [hint]
  show evaluate_over_domain ⟨trueLayers roots k,
      (List.range roots.length).map (fun m => (weightDen roots m)⁻¹)⟩
    (multiply_up_the_tree (trueLayers roots k)
      (List.zipWith (· * ·) v
        ((List.range roots.length).map (fun m => (weightDen roots m)⁻¹)))
      k 0) = some v
  have hwlen : (List.zipWith (· * ·) v
      ((List.range roots.length).map (fun m => (weightDen roots m)⁻¹))).length =
      roots.length := by
    rw [List.length_zipWith, List.length_map, List.length_range, hvlen, min_self]
  have htop := multiply_up_top hn hwlen
  have hpos : 0 < roots.length := by
    rw [hn]
    exact Nat.pos_pow_of_pos k (by omega)
  have hdegc : (toPoly (multiply_up_the_tree (trueLayers roots k)
      (List.zipWith (· * ·) v
        ((List.range roots.length).map (fun m => (weightDen roots m)⁻¹)))
      k 0)).degree < ((roots.length : ℕ) : WithBot ℕ) := by
    rw [htop.2]
    exact combSum_degree_lt _ _
  have hPlen := trimmed_length_le_of_degree_lt htop.1 hdegc
  have hark : arkDegree (multiply_up_the_tree (trueLayers roots k)
      (List.zipWith (· * ·) v
        ((List.range roots.length).map (fun m => (weightDen roots m)⁻¹)))
      k 0) < roots.length := by
    rw [arkDegree]
    omega
  rw [evaluate_trueTree hn _ hark]
  congr 1
  apply List.ext_getElem (by rw [List.length_map, hvlen])
  intro i h1 h2
  have hi : i < roots.length := by
    rw [List.length_map] at h1
    exact h1
  simp only [List.getElem_map]
  have hgd : roots[i] = roots.getD i 0 := (List.getD_eq_getElem roots 0 hi).symm
  rw [hgd, htop.2, eval_combSum roots _ hi,
    getD_zipWith_mul v _ (by rw [hvlen]; exact hi)
      (by rw [List.length_map, List.length_range]; exact hi)]
  have hri : ((List.range roots.length).map (fun m => (weightDen roots m)⁻¹)).getD i 0 =
      (weightDen roots i)⁻¹ := by
    rw [getD_map_range]
    rw [if_pos hi]
  rw [hri, mul_assoc, inv_mul_cancel₀ (weightDen_ne_zero hdist hi), mul_one]
  exact List.getD_eq_getElem v 0 (by rw [hvlen]; exact hi)

/-- C4 counterexample: on the pairwise-distinct but degenerately
constructed roots `{2, -2, 3, -3}` over `ZMod 101`, interpolating
`v = [1, 0, 0, 0]` and re-evaluating does not return `v`. -/
theorem c4_interp_counterexample :
    ([2, 99, 3, 98] : List K).Nodup ∧
    ([1, 0, 0, 0] : List K).length = ([2, 99, 3, 98] : List K).length ∧
    construct ([2, 99, 3, 98] : List K) = .success (getTree [2, 99, 3, 98]) ∧
    (interpolate (getTree ([2, 99, 3, 98] : List K)) [1, 0, 0, 0]).bind
      (evaluate_over_domain (getTree ([2, 99, 3, 98] : List K))) ≠
      some [1, 0, 0, 0] := by
  decide

/-- C4 witness: the amended round trip on the non-degenerate roots
`{1, 2, 3, 4}` over `ZMod 101` and the vector `[3, 1, 4, 1]`. -/
theorem c4_interp_witness :
    (([1, 2, 3, 4] : List K).length = 2 ^ 2 ∧
      nonDegenerate ([1, 2, 3, 4] : List K) 2 = true ∧
      ([1, 2, 3, 4] : List K).Nodup ∧
      ([3, 1, 4, 1] : List K).length = ([1, 2, 3, 4] : List K).length) ∧
    ∃ t : Pow2ProductSubtree K, construct [1, 2, 3, 4] = .success t ∧
      (interpolate t [3, 1, 4, 1]).bind (evaluate_over_domain t) =
        some [3, 1, 4, 1] :=
  ⟨⟨by decide, by decide, by decide, by decide⟩,
    c4_interp_amended [1, 2, 3, 4] 2 [3, 1, 4, 1] (by decide) (by decide) (by decide)
      (by decide)⟩

/-- C5 (amended): on a non-degenerate power-of-two construction over
pairwise-distinct roots, for every point outside the domain the batch
Lagrange-basis evaluation returns exactly the explicit basis values
`∏_(j ≠ i) (a - root_j) / (root_i - root_j)` in index order; at a domain
point the zero-inverse convention of batch inversion breaks the identity
instead. -/
theorem c5_basis_amended {F : Type} [Field F] [DecidableEq F]
    (roots : List F) (k : ℕ) (point : F) (hn : roots.length = 2 ^ k)
    (hnd : nonDegenerate roots k = true) (hdist : roots.Nodup)
    (hpt : point ∉ roots) :
    ∃ t : Pow2ProductSubtree F, construct roots = .success t ∧
      batch_evaluate_lagrange_basis t point =
        (List.range roots.length).map (fun i => lagrangeAt roots i point) := by
  refine ⟨⟨trueLayers roots k,
    (List.range roots.length).map (fun m => (weightDen roots m)⁻¹)⟩,
    construct_success_spec hn hnd, ?_⟩
  show List.zipWith
      (fun a b => a * b * evalList
        (getNode (trueLayers roots k) ((trueLayers roots k).length - 1) 0) point)
      ((List.range roots.length).map (fun m => (weightDen roots m)⁻¹))
      ((((trueLayers roots k).getD 0 []).map (fun p => evalList p point)).map (·⁻¹)) =
    (List.range roots.length).map (fun i => lagrangeAt roots i point)
  have hM : (((trueLayers roots k).getD 0 []).map (fun p => evalList p point)).map (·⁻¹) =
      roots.map (fun r => (point - r)⁻¹) := by
    rw [trueLayers_getD_zero, List.map_map, List.map_map]
    apply List.map_congr_left
    intro r _
    show (evalList (mkLeaf r) point)⁻¹ = (point - r)⁻¹
    rw [evalList_mkLeaf]
  rw [hM]
  have hv : evalList (getNode (trueLayers roots k) ((trueLayers roots k).length - 1) 0)
      point = (roots.map (fun r => point - r)).prod := by
    have h1 : getNode (trueLayers roots k) ((trueLayers roots k).length - 1) 0 =
        linearProduct roots :=
      get_vanishing_trueLayers hn
        ((List.range roots.length).map (fun m => (weightDen roots m)⁻¹))
    rw [h1, evalList_linearProduct]
  apply List.ext_getElem
  · simp
  intro i h1 h2
  have hi : i < roots.length := by
    rw [List.length_map, List.length_range] at h2
    exact h2
  simp only [List.getElem_zipWith, List.getElem_map, List.getElem_range]
  have hgd : roots.getD i 0 = roots[i] := List.getD_eq_getElem roots 0 hi
  have hmem : roots[i] ∈ roots := List.mem_iff_getElem.mpr ⟨i, hi, rfl⟩
  have hne : point - roots[i] ≠ 0 :=
    sub_ne_zero.mpr (fun he => hpt (he ▸ hmem))
  have hsplit : (roots.map (fun r => point - r)).prod =
      (point - roots[i]) * ((roots.eraseIdx i).map (fun r => point - r)).prod := by
    rw [prod_map_eraseIdx (fun r => point - r) hi, hgd]
  have hm1 : ((roots.eraseIdx i).map
      (fun rj => (point - rj) * (roots.getD i 0 - rj)⁻¹)).prod =
      ((roots.eraseIdx i).map (fun rj => point - rj)).prod *
        ((roots.eraseIdx i).map (fun rj => (roots.getD i 0 - rj)⁻¹)).prod :=
    prod_map_mul_fun _ _ _
  have hm2 : ((roots.eraseIdx i).map (fun rj => (roots.getD i 0 - rj)⁻¹)).prod =
      (((roots.eraseIdx i).map (fun rj => roots.getD i 0 - rj)).prod)⁻¹ :=
    prod_map_inv_comp _ _
  have hlag : lagrangeAt roots i point =
      ((roots.eraseIdx i).map (fun rj => point - rj)).prod * (weightDen roots i)⁻¹ := by
    rw [lagrangeAt, hm1, hm2, weightDen]
  have hcancel : ∀ x y : F, x ≠ 0 →
      (weightDen roots i)⁻¹ * x⁻¹ * (x * y) = y * (weightDen roots i)⁻¹ := by
    intro x y hx
    rw [mul_assoc, ← mul_assoc x⁻¹, inv_mul_cancel₀ hx, one_mul, mul_comm]
  have hstep : (weightDen roots i)⁻¹ * (point - roots[i])⁻¹ *
      evalList (getNode (trueLayers roots k) ((trueLayers roots k).length - 1) 0)
        point = lagrangeAt roots i point := by
    rw [hv, hsplit, hlag]
    exact hcancel (point - roots[i]) _ hne
  exact hstep

/-- C5 counterexample: `{1, 2, 3, 4}` over `ZMod 101` is pairwise distinct
and constructs non-degenerately, yet at the in-domain point `a = 1` the
batch output disagrees with the explicit basis values (the zeroed inverse
of `a - root_0 = 0` forces entry 0 to `0` instead of `1`), refuting the
claim for arbitrary points. -/
theorem c5_basis_counterexample :
    ([1, 2, 3, 4] : List K).Nodup ∧ nonDegenerate ([1, 2, 3, 4] : List K) 2 = true ∧
    construct ([1, 2, 3, 4] : List K) = .success (getTree [1, 2, 3, 4]) ∧
    (1 : K) ∈ ([1, 2, 3, 4] : List K) ∧
    batch_evaluate_lagrange_basis (getTree ([1, 2, 3, 4] : List K)) 1 ≠
      (List.range 4).map (fun i => lagrangeAt ([1, 2, 3, 4] : List K) i 1) := by
  decide

/-- C5 witness: the amended theorem at the out-of-domain point `a = 7` on
the non-degenerate roots `{1, 2, 3, 4}` over `ZMod 101`. -/
theorem c5_basis_witness :
    ((7 : K) ∉ ([1, 2, 3, 4] : List K) ∧ ([1, 2, 3, 4] : List K).Nodup ∧
      nonDegenerate ([1, 2, 3, 4] : List K) 2 = true ∧
      ([1, 2, 3, 4] : List K).length = 2 ^ 2) ∧
    ∃ t : Pow2ProductSubtree K, construct [1, 2, 3, 4] = .success t ∧
      batch_evaluate_lagrange_basis t 7 =
        (List.range ([1, 2, 3, 4] : List K).length).map
          (fun i => lagrangeAt ([1, 2, 3, 4] : List K) i 7) :=
  ⟨⟨by decide, by decide, by decide, by decide⟩,
    c5_basis_amended [1, 2, 3, 4] 2 7 (by decide) (by decide) (by decide) (by decide)⟩

end FastEval
